import Mathlib

/-!
# Verification of the skill-tracker hierarchy engine

A shallow embedding of the core of the `skill-tracker` repository:
the skill/counter data model (`app/models`), the tree-invariant checker and
traversal utilities (`app/utils/validation.py`), the next-ID allocator
(`app/storage_db.py`), and the mutation / aggregation / import-export
operations of the routers (`app/routers/skills.py`, `app/routers/counters.py`).

Python `dict`s (insertion-ordered, unique keys) are embedded as association
lists together with `dget` / `dset` mirroring `d[k]` lookup and `d[k] = v`
assignment.  Python `float`s are embedded as rationals (`ℚ`); every numeric
scenario in the specification uses dyadic values on which float arithmetic is
exact.  Python exceptions (`HTTPException`) become `Except` results; the
routers raise before any mutation, so an error result leaves the caller's
state untouched by construction.  Persistence calls (`save_skills`,
`save_counters`) are collaborator plumbing and have no effect on the
in-memory collections, so they are not modelled.
-/

namespace SkillTracker

/-! ## Association-list model of Python dicts -/

/-- Lookup in a dict rendered as an association list (first matching key).
Mirrors `d.get(k)` / `k in d` on a Python dict, whose keys are unique. -/
def dget {κ α : Type} [DecidableEq κ] : List (κ × α) → κ → Option α
  | [], _ => none
  | (k', v) :: t, k => if k' = k then some v else dget t k

/-- Dict assignment `d[k] = v`: replaces the value in place at the (unique)
occurrence of the key (Python dicts keep the original insertion position),
otherwise appends the new binding at the end. -/
def dset {κ α : Type} [DecidableEq κ] : List (κ × α) → κ → α → List (κ × α)
  | [], k, v => [(k, v)]
  | (k', v') :: t, k, v =>
    if k' = k then (k, v) :: t else (k', v') :: dset t k v

/-- The key list of a dict (`d.keys()`). -/
def dkeys {κ α : Type} (l : List (κ × α)) : List κ := l.map Prod.fst

theorem dget_eq_none {κ α : Type} [DecidableEq κ] (l : List (κ × α)) (k : κ) :
    dget l k = none ↔ k ∉ dkeys l := by
  induction l with
  | nil => simp [dget, dkeys]
  | cons p t ih =>
    obtain ⟨k', v⟩ := p
    by_cases h : k' = k
    · subst h; simp [dget, dkeys]
    · simp [dget, dkeys, h, ih]
      tauto

theorem dget_isSome_iff_mem {κ α : Type} [DecidableEq κ] (l : List (κ × α))
    (k : κ) : (dget l k).isSome ↔ k ∈ dkeys l := by
  rcases h : dget l k with _ | v
  · simpa [h] using (dget_eq_none l k).mp h
  · have : k ∈ dkeys l := by
      by_contra hk
      rw [(dget_eq_none l k).mpr hk] at h
      exact Option.noConfusion h
    simpa [h]

theorem dget_mem {κ α : Type} [DecidableEq κ] {l : List (κ × α)} {k : κ}
    {v : α} (h : dget l k = some v) : (k, v) ∈ l := by
  induction l with
  | nil => simp [dget] at h
  | cons p t ih =>
    obtain ⟨k', v'⟩ := p
    by_cases hk : k' = k
    · simp [dget, hk] at h
      subst hk h
      exact List.mem_cons_self _ _
    · simp [dget, hk] at h
      exact List.mem_cons_of_mem _ (ih h)

theorem mem_dget {κ α : Type} [DecidableEq κ] {l : List (κ × α)} {k : κ}
    {v : α} (hnd : (dkeys l).Nodup) (h : (k, v) ∈ l) : dget l k = some v := by
  induction l with
  | nil => simp at h
  | cons p t ih =>
    obtain ⟨k', v'⟩ := p
    simp only [dkeys, List.map_cons, List.nodup_cons] at hnd
    rcases List.mem_cons.mp h with h | h
    · obtain ⟨h1, h2⟩ := Prod.mk.injEq .. ▸ h
      simp [dget, h1, h2]
    · by_cases hk : k' = k
      · exfalso
        apply hnd.1
        subst hk
        exact List.mem_map_of_mem Prod.fst h
      · simpa [dget, hk] using ih hnd.2 h

theorem dget_dset_self {κ α : Type} [DecidableEq κ] (l : List (κ × α))
    (k : κ) (v : α) : dget (dset l k v) k = some v := by
  induction l with
  | nil => simp [dset, dget]
  | cons p t ih =>
    obtain ⟨k', v'⟩ := p
    by_cases hk : k' = k
    · simp [dset, hk, dget]
    · simp [dset, hk, dget, ih]

theorem dget_dset_ne {κ α : Type} [DecidableEq κ] (l : List (κ × α))
    (k k' : κ) (v : α) (h : k' ≠ k) : dget (dset l k v) k' = dget l k' := by
  induction l with
  | nil =>
    simp only [dset, dget, if_neg (fun hh : k = k' => h hh.symm)]
  | cons p t ih =>
    obtain ⟨k0, v0⟩ := p
    by_cases hk : k0 = k
    · subst hk
      have hne : ¬ k0 = k' := fun hh => h hh.symm
      simp [dset, dget, hne]
    · by_cases hk' : k0 = k'
      · simp [dset, hk, dget, hk', h]
      · simp [dset, hk, dget, hk', ih]

theorem mem_dkeys_dset {κ α : Type} [DecidableEq κ] (l : List (κ × α))
    (k : κ) (v : α) (x : κ) :
    x ∈ dkeys (dset l k v) ↔ x = k ∨ x ∈ dkeys l := by
  rw [← dget_isSome_iff_mem, ← dget_isSome_iff_mem]
  by_cases hx : x = k
  · subst hx; simp [dget_dset_self]
  · rw [dget_dset_ne l k x v hx]
    simp [hx]

theorem nodup_dkeys_dset {κ α : Type} [DecidableEq κ] (l : List (κ × α))
    (k : κ) (v : α) (h : (dkeys l).Nodup) : (dkeys (dset l k v)).Nodup := by
  induction l with
  | nil => simp [dset, dkeys]
  | cons p t ih =>
    obtain ⟨k', v'⟩ := p
    simp only [dkeys, List.map_cons, List.nodup_cons] at h
    by_cases hk : k' = k
    · subst hk
      have hd : dset ((k', v') :: t) k' v = (k', v) :: t := by simp [dset]
      rw [hd]
      simp only [dkeys, List.map_cons, List.nodup_cons]
      exact h
    · simp only [dset, if_neg hk, dkeys, List.map_cons, List.nodup_cons]
      constructor
      · intro hx
        rcases (mem_dkeys_dset t k v k').mp hx with hx | hx
        · exact hk hx
        · exact h.1 hx
      · exact ih h.2

/-- Appending a binding with a fresh key is the same as `dset`. -/
theorem dset_eq_append {κ α : Type} [DecidableEq κ] (l : List (κ × α))
    (k : κ) (v : α) (h : k ∉ dkeys l) : dset l k v = l ++ [(k, v)] := by
  induction l with
  | nil => simp [dset]
  | cons p t ih =>
    obtain ⟨k', v'⟩ := p
    simp only [dkeys, List.map_cons, List.mem_cons] at h
    push_neg at h
    have hne : ¬ k' = k := fun hh => h.1 hh.symm
    simp [dset, hne, ih h.2]

/-! ## Data model (`app/models/skill.py`, `app/models/counter.py`)

IDs are Python ints, embedded as `Int` (the update API uses the sentinel
`-1`).  Floats are embedded as `ℚ`. -/

/-- `app/models/skill.py` `Skill`: `{id, name, parent_id}`;
`parent_id = None` marks a root. -/
structure Skill where
  id : Int
  name : String
  parent_id : Option Int
deriving DecidableEq, Repr

/-- `app/models/counter.py` `Counter`:
`{id, skill_id, name, unit, value, target}`. -/
structure Counter where
  id : Int
  skill_id : Int
  name : String
  unit : Option String
  value : ℚ
  target : Option ℚ
deriving DecidableEq, Repr

/-- The whole in-memory state held at module scope by the routers:
`skills_db` / `next_skill_id` (`app/routers/skills.py`) and
`counters_db` / `next_counter_id` (`app/routers/counters.py`). -/
structure St where
  skills : List (Int × Skill)
  next_skill_id : Int
  counters : List (Int × Counter)
  next_counter_id : Int
deriving DecidableEq, Repr

/-- `fastapi.HTTPException(status_code, detail)` as raised by the routers. -/
structure HTTPErr where
  status : Nat
  detail : String
deriving DecidableEq, Repr

/-! ## Parent-pointer maps and reachability -/

/-- `{skill_id: skill.parent_id for skill_id, skill in skills_db.items()}` —
the parent map the routers build before validating or traversing. -/
def pmList (skills : List (Int × Skill)) : List (Int × Option Int) :=
  skills.map (fun p => (p.1, p.2.parent_id))

/-- `skill_parent_map.get(current)`: Python's `dict.get` returns `None` both
for an absent key and for a stored `None` parent, which is exactly
`Option.join` of the association-list lookup. -/
def pmF (m : List (Int × Option Int)) : Int → Option Int :=
  fun k => (dget m k).join

/-- `b` is reachable from `a` by repeatedly following parent pointers
(reflexive-transitive closure of the child-to-parent edge relation). -/
inductive ReachUp (f : Int → Option Int) : Int → Int → Prop
  | refl (a : Int) : ReachUp f a a
  | step {a b c : Int} : f a = some b → ReachUp f b c → ReachUp f a c

/-- The parent-pointer graph has no cycle: no node is reachable from its own
parent. -/
def Acyclic (f : Int → Option Int) : Prop :=
  ∀ k p, f k = some p → ¬ ReachUp f p k

/-- `n`-fold iteration of the parent pointer (`none` once the walk leaves the
map or meets a `None` parent). -/
def iterP (f : Int → Option Int) : Nat → Int → Option Int
  | 0, a => some a
  | n + 1, a =>
    match f a with
    | none => none
    | some p => iterP f n p

theorem ReachUp.trans {f : Int → Option Int} {a b c : Int}
    (h1 : ReachUp f a b) (h2 : ReachUp f b c) : ReachUp f a c := by
  induction h1 with
  | refl => exact h2
  | step hs _ ih => exact .step hs (ih h2)

theorem ReachUp.append {f : Int → Option Int} {a b c : Int}
    (h1 : ReachUp f a b) (h2 : f b = some c) : ReachUp f a c :=
  h1.trans (.step h2 (.refl c))

theorem iterP_reachUp {f : Int → Option Int} :
    ∀ {n a b}, iterP f n a = some b → ReachUp f a b := by
  intro n
  induction n with
  | zero => intro a b h; simp [iterP] at h; exact h ▸ .refl a
  | succ n ih =>
    intro a b h
    rcases hp : f a with _ | p
    · simp [iterP, hp] at h
    · simp only [iterP, hp] at h
      exact .step hp (ih h)

theorem reachUp_iterP {f : Int → Option Int} {a b : Int}
    (h : ReachUp f a b) : ∃ n, iterP f n a = some b := by
  induction h with
  | refl => exact ⟨0, rfl⟩
  | step hs _ ih =>
    obtain ⟨n, hn⟩ := ih
    exact ⟨n + 1, by simp [iterP, hs, hn]⟩

theorem iterP_add {f : Int → Option Int} :
    ∀ (m n : Nat) (a : Int), iterP f (m + n) a =
      (iterP f m a).bind (iterP f n) := by
  intro m
  induction m with
  | zero => intro n a; simp [iterP, Nat.zero_add]
  | succ m ih =>
    intro n a
    have : m + 1 + n = (m + n) + 1 := by omega
    rw [this]
    rcases hp : f a with _ | p
    · simp [iterP, hp]
    · simp only [iterP, hp]
      rw [show m + n = m + n from rfl, ih n p]

/-! ## The tree-invariant checker (`app/utils/validation.py`) -/

/-- `CyclicDependencyError`, with one constructor per `raise` site in
`validate_no_cycle`. -/
inductive CycleErr where
  | selfParent
  | wouldCycle (skill_id new_parent_id : Int)
  | existingCycle (node : Int)
deriving DecidableEq, Repr

/-- The exact message strings attached to each `raise`. -/
def CycleErr.message : CycleErr → String
  | .selfParent => "Skill cannot be its own parent"
  | .wouldCycle sid np =>
      s!"Setting parent would create a cycle: skill {sid} is an ancestor of skill {np}"
  | .existingCycle n => s!"Existing cycle detected in skill tree at skill {n}"

/-- The key set of a parent map, used as the termination measure of the
upward walk. -/
def keysFin (m : List (Int × Option Int)) : Finset Int :=
  (dkeys m).toFinset

/-- The `while current is not None` loop of `validate_no_cycle`
(`app/utils/validation.py` lines 55-75): check `current == skill_id`, check
`current in visited`, add to `visited`, move to
`skill_parent_map.get(current)`. -/
def walkUp (skill_id new_parent_id : Int) (m : List (Int × Option Int)) :
    Int → Finset Int → Except CycleErr Unit
  | cur, visited =>
    if cur = skill_id then .error (.wouldCycle skill_id new_parent_id)
    else if cur ∈ visited then .error (.existingCycle cur)
    else
      match hp : pmF m cur with
      | none => .ok ()
      | some nxt => walkUp skill_id new_parent_id m nxt (insert cur visited)
termination_by cur visited => (keysFin m \ visited).card
decreasing_by
  have hcur : cur ∈ keysFin m := by
    have : (dget m cur).isSome := by
      unfold pmF at hp
      rcases h : dget m cur with _ | v
      · simp [h] at hp
      · simp
    simpa [keysFin, List.mem_toFinset] using (dget_isSome_iff_mem m cur).mp this
  rename_i hnots hnotv
  apply Finset.card_lt_card
  constructor
  · intro x hx
    simp only [Finset.mem_sdiff, Finset.mem_insert] at hx ⊢
    exact ⟨hx.1, fun h => hx.2 (Or.inr h)⟩
  · intro hsub
    have := hsub (by simp [Finset.mem_sdiff, hcur, hnotv] : cur ∈ keysFin m \ visited)
    simp [Finset.mem_sdiff] at this

/-- `validate_no_cycle(skill_id, new_parent_id, skill_parent_map)`
(`app/utils/validation.py` lines 11-75). -/
def validate_no_cycle (skill_id : Int) (new_parent_id : Option Int)
    (m : List (Int × Option Int)) : Except CycleErr Unit :=
  match new_parent_id with
  | none => .ok ()
  | some np =>
    if skill_id = np then .error .selfParent
    else walkUp skill_id np m np ∅

/-! ## Characterization of the upward walk -/

theorem cur_mem_keysFin {m : List (Int × Option Int)} {cur nxt : Int}
    (hp : pmF m cur = some nxt) : cur ∈ keysFin m := by
  have : (dget m cur).isSome := by
    unfold pmF at hp
    rcases h : dget m cur with _ | v
    · simp [h] at hp
    · simp
  simpa [keysFin, List.mem_toFinset] using (dget_isSome_iff_mem m cur).mp this

theorem walk_measure_lt {m : List (Int × Option Int)} {cur : Int}
    {visited : Finset Int} (h1 : cur ∈ keysFin m) (h2 : cur ∉ visited) :
    (keysFin m \ insert cur visited).card < (keysFin m \ visited).card := by
  apply Finset.card_lt_card
  constructor
  · intro x hx
    simp only [Finset.mem_sdiff, Finset.mem_insert] at hx ⊢
    exact ⟨hx.1, fun h => hx.2 (Or.inr h)⟩
  · intro hsub
    have := hsub (by simp [Finset.mem_sdiff, h1, h2] : cur ∈ keysFin m \ visited)
    simp [Finset.mem_sdiff] at this

theorem walkUp_unfold (s np : Int) (m : List (Int × Option Int)) (cur : Int)
    (visited : Finset Int) :
    walkUp s np m cur visited =
      if cur = s then .error (.wouldCycle s np)
      else if cur ∈ visited then .error (.existingCycle cur)
      else
        match pmF m cur with
        | none => .ok ()
        | some nxt => walkUp s np m nxt (insert cur visited) := by
  rw [walkUp]
  by_cases h1 : cur = s
  · simp [h1]
  · by_cases h2 : cur ∈ visited
    · simp [h1, h2]
    · rcases h : pmF m cur with _ | nxt <;> simp [h1, h2, h]

/-- A node reachable from a member of a parent-step-closed set is itself a
member. -/
theorem reach_mem_of_closed {f : Int → Option Int} {V : Finset Int}
    (hcl : ∀ v ∈ V, ∀ w, f v = some w → w ∈ V) {a x : Int} (ha : a ∈ V)
    (hr : ReachUp f a x) : x ∈ V := by
  induction hr with
  | refl => exact ha
  | step hs _ ih => exact ih (hcl _ ha _ hs)

/-- Inversion for `ReachUp`. -/
theorem ReachUp.cases_head {f : Int → Option Int} {a b : Int}
    (h : ReachUp f a b) : a = b ∨ ∃ w, f a = some w ∧ ReachUp f w b := by
  cases h with
  | refl => exact Or.inl rfl
  | step hs ht => exact Or.inr ⟨_, hs, ht⟩

/-- Every node reachable from a node that lies on a cycle lies on a cycle
itself (and in particular still has a parent). -/
theorem cycle_propagates {f : Int → Option Int} {a : Int}
    (hc : ∃ b, f a = some b ∧ ReachUp f b a) :
    ∀ {x}, ReachUp f a x → ∃ b, f x = some b ∧ ReachUp f b x := by
  intro x hr
  induction hr with
  | refl => exact hc
  | @step a2 b2 c2 hs ht ih =>
    apply ih
    obtain ⟨b, hb, hrb⟩ := hc
    rw [hs] at hb
    injection hb with hb
    subst hb
    rcases hrb.cases_head with heq | ⟨w, hw, hrw⟩
    · subst heq
      exact ⟨b2, hs, .refl _⟩
    · exact ⟨w, hw, hrw.append hs⟩

/-- If the walk's target is reachable from the current node, and the visited
set never contains the target and is parent-closed up to the current node,
the walk fails with the would-create-a-cycle error.  (Source: the
`current == skill_id` check fires at the first visit of any node on the
chain, before any revisit can be detected.) -/
theorem walkUp_wouldCycle_of_reach (s np : Int) (m : List (Int × Option Int)) :
    ∀ (n : Nat) (cur : Int) (visited : Finset Int),
      (keysFin m \ visited).card = n →
      (∀ v ∈ visited, v ≠ s) →
      (∀ v ∈ visited, ∀ w, pmF m v = some w → w ∈ visited ∨ w = cur) →
      ReachUp (pmF m) cur s →
      walkUp s np m cur visited = .error (.wouldCycle s np) := by
  intro n
  induction n using Nat.strong_induction_on with
  | _ n ih =>
    intro cur visited hcard hA hB hreach
    rw [walkUp_unfold]
    by_cases hcs : cur = s
    · simp [hcs]
    · rw [if_neg hcs]
      by_cases hcv : cur ∈ visited
      · exfalso
        have hcl : ∀ v ∈ visited, ∀ w, pmF m v = some w → w ∈ visited := by
          intro v hv w hw
          rcases hB v hv w hw with h | rfl
          · exact h
          · exact hcv
        exact hA s (reach_mem_of_closed hcl hcv hreach) rfl
      · rw [if_neg hcv]
        rcases hreach.cases_head with rfl | ⟨w, hw, hrw⟩
        · exact absurd rfl hcs
        · rw [hw]
          apply ih _ (hcard ▸ walk_measure_lt (cur_mem_keysFin hw) hcv) _ _ rfl
          · intro v hv
            rcases Finset.mem_insert.mp hv with rfl | hv
            · exact hcs
            · exact hA v hv
          · intro v hv x hx
            rcases Finset.mem_insert.mp hv with rfl | hv
            · rw [hw] at hx
              injection hx with hx
              exact Or.inr hx.symm
            · rcases hB v hv x hx with h | rfl
              · exact Or.inl (Finset.mem_insert_of_mem h)
              · exact Or.inl (Finset.mem_insert_self _ _)
          · exact hrw

/-- If the walk succeeds, the parent chain from the current node reaches a
node with no parent entry. -/
theorem walkUp_ok_terminates (s np : Int) (m : List (Int × Option Int)) :
    ∀ (n : Nat) (cur : Int) (visited : Finset Int),
      (keysFin m \ visited).card = n →
      walkUp s np m cur visited = .ok () →
      ∃ a, ReachUp (pmF m) cur a ∧ pmF m a = none := by
  intro n
  induction n using Nat.strong_induction_on with
  | _ n ih =>
    intro cur visited hcard hok
    rw [walkUp_unfold] at hok
    by_cases hcs : cur = s
    · simp [hcs] at hok
    · rw [if_neg hcs] at hok
      by_cases hcv : cur ∈ visited
      · simp [hcv] at hok
      · rw [if_neg hcv] at hok
        rcases hp : pmF m cur with _ | nxt
        · exact ⟨cur, .refl cur, hp⟩
        · rw [hp] at hok
          obtain ⟨a, hra, hna⟩ :=
            ih _ (hcard ▸ walk_measure_lt (cur_mem_keysFin hp) hcv) _ _ rfl hok
          exact ⟨a, .step hp hra, hna⟩

/-- If the walk reports the would-create-a-cycle error, the target really is
reachable from the current node. -/
theorem walkUp_reach_of_wouldCycle (s np : Int) (m : List (Int × Option Int)) :
    ∀ (n : Nat) (cur : Int) (visited : Finset Int),
      (keysFin m \ visited).card = n →
      walkUp s np m cur visited = .error (.wouldCycle s np) →
      ReachUp (pmF m) cur s := by
  intro n
  induction n using Nat.strong_induction_on with
  | _ n ih =>
    intro cur visited hcard herr
    rw [walkUp_unfold] at herr
    by_cases hcs : cur = s
    · exact hcs ▸ .refl cur
    · rw [if_neg hcs] at herr
      by_cases hcv : cur ∈ visited
      · simp [hcv] at herr
      · rw [if_neg hcv] at herr
        rcases hp : pmF m cur with _ | nxt
        · rw [hp] at herr; simp at herr
        · rw [hp] at herr
          exact .step hp
            (ih _ (hcard ▸ walk_measure_lt (cur_mem_keysFin hp) hcv) _ _ rfl herr)

/-- If the chain from the current node terminates without reaching the
target, and every visited node strictly reaches the current node, the walk
succeeds. -/
theorem walkUp_ok_of_terminates (s np : Int) (m : List (Int × Option Int)) :
    ∀ (n : Nat) (cur : Int) (visited : Finset Int),
      (keysFin m \ visited).card = n →
      (∀ v ∈ visited, ∃ w, pmF m v = some w ∧ ReachUp (pmF m) w cur) →
      (∃ a, ReachUp (pmF m) cur a ∧ pmF m a = none) →
      ¬ ReachUp (pmF m) cur s →
      walkUp s np m cur visited = .ok () := by
  intro n
  induction n using Nat.strong_induction_on with
  | _ n ih =>
    intro cur visited hcard hV hterm hnr
    rw [walkUp_unfold]
    by_cases hcs : cur = s
    · exact absurd (hcs ▸ .refl cur) hnr
    · rw [if_neg hcs]
      by_cases hcv : cur ∈ visited
      · exfalso
        obtain ⟨a, hra, hna⟩ := hterm
        obtain ⟨b, hb, _⟩ := cycle_propagates (hV cur hcv) hra
        rw [hna] at hb
        exact Option.noConfusion hb
      · rw [if_neg hcv]
        rcases hp : pmF m cur with _ | nxt
        · rfl
        · apply ih _ (hcard ▸ walk_measure_lt (cur_mem_keysFin hp) hcv) _ _ rfl
          · intro v hv
            rcases Finset.mem_insert.mp hv with rfl | hv
            · exact ⟨nxt, hp, .refl _⟩
            · obtain ⟨w, hw, hrw⟩ := hV v hv
              exact ⟨w, hw, hrw.append hp⟩
          · obtain ⟨a, hra, hna⟩ := hterm
            rcases hra.cases_head with rfl | ⟨w, hw, hrw⟩
            · rw [hna] at hp; exact Option.noConfusion hp
            · rw [hp] at hw
              obtain rfl : nxt = w := by injection hw
              exact ⟨a, hrw, hna⟩
          · intro hr
            exact hnr (.step hp hr)

/-- The walk never reports the self-parent error (that error is raised before
the loop starts). -/
theorem walkUp_no_selfParent (s np : Int) (m : List (Int × Option Int)) :
    ∀ (n : Nat) (cur : Int) (visited : Finset Int),
      (keysFin m \ visited).card = n →
      walkUp s np m cur visited ≠ .error .selfParent := by
  intro n
  induction n using Nat.strong_induction_on with
  | _ n ih =>
    intro cur visited hcard herr
    rw [walkUp_unfold] at herr
    by_cases hcs : cur = s
    · simp [hcs] at herr
    · rw [if_neg hcs] at herr
      by_cases hcv : cur ∈ visited
      · simp [hcv] at herr
      · rw [if_neg hcv] at herr
        rcases hp : pmF m cur with _ | nxt
        · rw [hp] at herr; simp at herr
        · rw [hp] at herr
          exact ih _ (hcard ▸ walk_measure_lt (cur_mem_keysFin hp) hcv) _ _ rfl herr

/-- The would-create-a-cycle error always carries the walk's own target and
start as its arguments. -/
theorem walkUp_wouldCycle_args (s np : Int) (m : List (Int × Option Int)) :
    ∀ (n : Nat) (cur : Int) (visited : Finset Int) (a b : Int),
      (keysFin m \ visited).card = n →
      walkUp s np m cur visited = .error (.wouldCycle a b) →
      a = s ∧ b = np := by
  intro n
  induction n using Nat.strong_induction_on with
  | _ n ih =>
    intro cur visited a b hcard herr
    rw [walkUp_unfold] at herr
    by_cases hcs : cur = s
    · rw [if_pos hcs] at herr
      injection herr with herr
      cases herr
      exact ⟨rfl, rfl⟩
    · rw [if_neg hcs] at herr
      by_cases hcv : cur ∈ visited
      · simp [hcv] at herr
      · rw [if_neg hcv] at herr
        rcases hp : pmF m cur with _ | nxt
        · rw [hp] at herr; simp at herr
        · rw [hp] at herr
          exact ih _ (hcard ▸ walk_measure_lt (cur_mem_keysFin hp) hcv) _ _ _ _
            rfl herr

/-- Unfolding of the checker at a concrete proposed parent. -/
theorem validate_some (s np : Int) (m : List (Int × Option Int)) :
    validate_no_cycle s (some np) m =
      if s = np then .error .selfParent else walkUp s np m np ∅ := rfl

/-- A `None` proposed parent always validates. -/
theorem validate_none (s : Int) (m : List (Int × Option Int)) :
    validate_no_cycle s none m = .ok () := rfl

/-- The self-parent error occurs exactly when the proposed parent is the
skill itself. -/
theorem validate_selfParent_iff (s np : Int) (m : List (Int × Option Int)) :
    validate_no_cycle s (some np) m = .error .selfParent ↔ np = s := by
  rw [validate_some]
  by_cases h : s = np
  · simp [h]
  · rw [if_neg h]
    constructor
    · intro hw
      exact absurd hw (walkUp_no_selfParent s np m _ np ∅ rfl)
    · intro hh; exact absurd hh.symm h

/-- The would-create-a-cycle error occurs exactly when the skill is reachable
upward from the proposed parent. -/
theorem validate_wouldCycle_iff (s np : Int) (m : List (Int × Option Int))
    (hns : np ≠ s) :
    validate_no_cycle s (some np) m = .error (.wouldCycle s np) ↔
      ReachUp (pmF m) np s := by
  rw [validate_some, if_neg (fun hh : s = np => hns hh.symm)]
  constructor
  · exact walkUp_reach_of_wouldCycle s np m _ np ∅ rfl
  · intro hr
    exact walkUp_wouldCycle_of_reach s np m _ np ∅ rfl (by simp) (by simp) hr

/-- Validation succeeds exactly when the upward chain from the proposed
parent terminates at a `None` parent without meeting the skill. -/
theorem validate_ok_iff (s np : Int) (m : List (Int × Option Int))
    (hns : np ≠ s) :
    validate_no_cycle s (some np) m = .ok () ↔
      (¬ ReachUp (pmF m) np s ∧
        ∃ a, ReachUp (pmF m) np a ∧ pmF m a = none) := by
  rw [validate_some, if_neg (fun hh : s = np => hns hh.symm)]
  constructor
  · intro hok
    refine ⟨?_, walkUp_ok_terminates s np m _ np ∅ rfl hok⟩
    intro hr
    rw [walkUp_wouldCycle_of_reach s np m _ np ∅ rfl (by simp) (by simp) hr]
      at hok
    exact Except.noConfusion hok
  · intro ⟨hnr, hterm⟩
    exact walkUp_ok_of_terminates s np m _ np ∅ rfl (by simp) hterm hnr

/-- The existing-cycle error occurs exactly when the upward chain from the
proposed parent neither meets the skill nor terminates: the map already
contains a cycle independent of the proposed operation. -/
theorem validate_existingCycle_iff (s np : Int) (m : List (Int × Option Int))
    (hns : np ≠ s) :
    (∃ x, validate_no_cycle s (some np) m = .error (.existingCycle x)) ↔
      (¬ ReachUp (pmF m) np s ∧
        ¬ ∃ a, ReachUp (pmF m) np a ∧ pmF m a = none) := by
  constructor
  · intro ⟨x, hx⟩
    have hnr : ¬ ReachUp (pmF m) np s := by
      intro hr
      rw [(validate_wouldCycle_iff s np m hns).mpr hr] at hx
      exact CycleErr.noConfusion (Except.error.inj hx)
    refine ⟨hnr, fun hterm => ?_⟩
    rw [(validate_ok_iff s np m hns).mpr ⟨hnr, hterm⟩] at hx
    exact Except.noConfusion hx
  · intro ⟨hnr, hnterm⟩
    rcases hv : validate_no_cycle s (some np) m with e | u
    · cases e with
      | selfParent => exact absurd ((validate_selfParent_iff s np m).mp hv) hns
      | wouldCycle a b =>
        rw [validate_some, if_neg (fun hh : s = np => hns hh.symm)] at hv
        have hab := walkUp_wouldCycle_args s np m _ np ∅ a b rfl hv
        rw [hab.1, hab.2] at hv
        exact absurd (walkUp_reach_of_wouldCycle s np m _ np ∅ rfl hv) hnr
      | existingCycle x => exact ⟨x, rfl⟩
    · obtain ⟨⟩ := u
      exact absurd ((validate_ok_iff s np m hns).mp hv) (by
        intro ⟨h1, h2⟩; exact hnterm h2)

/-! ## Preservation of acyclicity -/

/-- Pointwise update of a parent function at one node — the effect of
`temp_skill_parent_map[skill_id] = new_parent_id`. -/
def updF (f : Int → Option Int) (s : Int) (p : Option Int) :
    Int → Option Int :=
  fun k => if k = s then p else f k

/-- `dset` on a parent map is `updF` on its lookup function. -/
theorem pmF_dset (m : List (Int × Option Int)) (s : Int) (p : Option Int) :
    pmF (dset m s p) = updF (pmF m) s p := by
  funext k
  unfold pmF updF
  by_cases hk : k = s
  · subst hk; rw [dget_dset_self]; simp
  · rw [dget_dset_ne m s k p hk, if_neg hk]

theorem reachUp_mono {f f' : Int → Option Int}
    (hsub : ∀ x y, f' x = some y → f x = some y) {a b : Int}
    (h : ReachUp f' a b) : ReachUp f a b := by
  induction h with
  | refl => exact .refl _
  | step hs _ ih => exact .step (hsub _ _ hs) ih

theorem acyclic_mono {f f' : Int → Option Int}
    (hsub : ∀ x y, f' x = some y → f x = some y) (h : Acyclic f) :
    Acyclic f' := by
  intro k p hk hr
  exact h k p (hsub _ _ hk) (reachUp_mono hsub hr)

/-- Clearing a node's parent (or leaving the function unchanged at a `none`)
only removes edges. -/
theorem acyclic_updF_none {f : Int → Option Int} (s : Int) (h : Acyclic f) :
    Acyclic (updF f s none) := by
  apply acyclic_mono (f := f)
  intro x y hx
  unfold updF at hx
  by_cases hxs : x = s
  · rw [if_pos hxs] at hx; exact Option.noConfusion hx
  · rwa [if_neg hxs] at hx
  · exact h

/-- Decomposition: a path in the updated graph either avoids the updated
node's new edge entirely (and is a path of the original graph), or splits at
the first use of the new edge. -/
theorem reachUp_updF_decompose {f : Int → Option Int} {s p : Int}
    {a b : Int} (h : ReachUp (updF f s (some p)) a b) :
    ReachUp f a b ∨ (ReachUp f a s ∧ ReachUp (updF f s (some p)) p b) := by
  induction h with
  | refl => exact Or.inl (.refl _)
  | @step x y z hs ht ih =>
    by_cases hxs : x = s
    · subst hxs
      have hy : y = p := by
        unfold updF at hs
        rw [if_pos rfl] at hs
        injection hs with hs
        exact hs.symm
      subst hy
      exact Or.inr ⟨.refl _, ht⟩
    · have hfx : f x = some y := by
        unfold updF at hs
        rwa [if_neg hxs] at hs
      rcases ih with hf | ⟨h1, h2⟩
      · exact Or.inl (.step hfx hf)
      · exact Or.inr ⟨.step hfx h1, h2⟩

/-- A path of the original graph ending at the updated node survives the
update (its prefix never steps out of the updated node). -/
theorem reachUp_updF_to_s {f : Int → Option Int} {s : Int} (p : Option Int)
    {a : Int} (h : ReachUp f a s) : ReachUp (updF f s p) a s := by
  induction h with
  | refl => exact .refl _
  | @step x y z hs ht ih =>
    by_cases hxz : x = z
    · cases hxz; exact .refl _
    · exact .step (by unfold updF; rwa [if_neg hxz]) ih

/-- Main preservation lemma: if the original graph is acyclic and the skill
is not reachable upward from its proposed parent in the updated graph, the
updated graph is acyclic. -/
theorem acyclic_updF_some {f : Int → Option Int} {s p : Int}
    (hac : Acyclic f) (hval : ¬ ReachUp (updF f s (some p)) p s) :
    Acyclic (updF f s (some p)) := by
  intro k q hk hr
  by_cases hks : k = s
  · subst hks
    have hq : q = p := by
      unfold updF at hk
      rw [if_pos rfl] at hk
      injection hk with hk
      exact hk.symm
    subst hq
    exact hval hr
  · have hfk : f k = some q := by
      unfold updF at hk
      rwa [if_neg hks] at hk
    rcases reachUp_updF_decompose hr with hqk | ⟨hqs, hpk⟩
    · exact hac k q hfk hqk
    · rcases reachUp_updF_decompose hpk with hpk' | ⟨hps, _⟩
      · exact hval (reachUp_updF_to_s _ ((hpk'.append hfk).trans hqs))
      · exact hval (reachUp_updF_to_s _ hps)

/-- In an acyclic graph every upward chain terminates at a node without a
parent entry. -/
theorem acyclic_chain_terminates (m : List (Int × Option Int))
    (hac : Acyclic (pmF m)) (a0 : Int) :
    ∃ b, ReachUp (pmF m) a0 b ∧ pmF m b = none := by
  suffices h : ∀ (n : Nat) (V : Finset Int) (a : Int),
      (keysFin m \ V).card = n → a ∉ V →
      (∀ v ∈ V, ReachUp (pmF m) v a) →
      ∃ b, ReachUp (pmF m) a b ∧ pmF m b = none by
    exact h _ ∅ a0 rfl (by simp) (by simp)
  intro n
  induction n using Nat.strong_induction_on with
  | _ n ih =>
    intro V a hcard haV hV
    rcases hp : pmF m a with _ | p
    · exact ⟨a, .refl a, hp⟩
    · have hpV : p ∉ insert a V := by
        intro hmem
        rcases Finset.mem_insert.mp hmem with heq | hmem
        · subst heq; exact hac _ _ hp (.refl _)
        · exact hac a p hp (hV p hmem)
      obtain ⟨b, hrb, hnb⟩ :=
        ih _ (hcard ▸ walk_measure_lt (cur_mem_keysFin hp) haV) (insert a V) p
          rfl hpV (by
            intro v hv
            rcases Finset.mem_insert.mp hv with rfl | hv
            · exact .step hp (.refl _)
            · exact (hV v hv).append hp)
      exact ⟨b, .step hp hrb, hnb⟩

/-! ## The traversal engine: descendant computation
(`app/utils/validation.py` lines 115-151)

The Python `get_descendants` recurses with no structural bound; it
terminates precisely because the maps it is given are acyclic (on a cyclic
map it would exceed the recursion limit).  The embedding makes the
recursion depth explicit as fuel; `m.length` fuel is proven sufficient to
compute the full descendant set. -/

/-- One level of `get_descendants`: for every `(child_id, parent_id)` entry
whose parent is `skill_id`, add the child and recurse into it. -/
def get_descendants_fuel (m : List (Int × Option Int)) :
    Nat → Int → Finset Int
  | 0, _ => ∅
  | n + 1, sid =>
    (m.filter (fun p => p.2 = some sid)).foldl
      (fun acc p => acc ∪ ({p.1} ∪ get_descendants_fuel m n p.1)) ∅

/-- `get_descendants(skill_id, skill_parent_map)`. -/
def get_descendants (sid : Int) (m : List (Int × Option Int)) : Finset Int :=
  get_descendants_fuel m m.length sid

/-- `x` is a strict descendant of `sid`: some positive number of parent
steps leads from `x` to `sid`. -/
def IsDescendant (m : List (Int × Option Int)) (sid x : Int) : Prop :=
  ∃ k, iterP (pmF m) (k + 1) x = some sid

theorem mem_foldl_union {β : Type} (l : List β) (g : β → Finset Int)
    (x : Int) :
    ∀ init : Finset Int,
      (x ∈ l.foldl (fun acc b => acc ∪ g b) init ↔
        x ∈ init ∨ ∃ b ∈ l, x ∈ g b) := by
  induction l with
  | nil => intro init; simp
  | cons hd tl ih =>
    intro init
    simp only [List.foldl_cons, ih, Finset.mem_union, List.mem_cons]
    constructor
    · rintro ((h | h) | ⟨b, hb, hx⟩)
      · exact Or.inl h
      · exact Or.inr ⟨hd, Or.inl rfl, h⟩
      · exact Or.inr ⟨b, Or.inr hb, hx⟩
    · rintro (h | ⟨b, (rfl | hb), hx⟩)
      · exact Or.inl (Or.inl h)
      · exact Or.inl (Or.inr hx)
      · exact Or.inr ⟨b, hb, hx⟩

theorem iterP_prefix {f : Int → Option Int} {n : Nat} {a b : Int}
    (h : iterP f n a = some b) {i : Nat} (hi : i ≤ n) :
    ∃ c, iterP f i a = some c ∧ iterP f (n - i) c = some b := by
  have hadd : i + (n - i) = n := by omega
  rw [← hadd, iterP_add] at h
  rcases hc : iterP f i a with _ | c
  · rw [hc] at h; exact Option.noConfusion h
  · rw [hc] at h
    exact ⟨c, rfl, h⟩

/-- Any realized parent chain can be shortened to one of length at most the
number of keys of the map (a longer chain repeats a node and the loop
between the repeats can be cut out). -/
theorem iterP_shorten (m : List (Int × Option Int)) (a b : Int) :
    ∀ n, iterP (pmF m) n a = some b →
      ∃ n', n' ≤ (keysFin m).card ∧ iterP (pmF m) n' a = some b := by
  intro n
  induction n using Nat.strong_induction_on with
  | _ n ih =>
    intro hn
    by_cases hle : n ≤ (keysFin m).card
    · exact ⟨n, hle, hn⟩
    · push_neg at hle
      have hnode : ∀ i < n, ∃ c, iterP (pmF m) i a = some c ∧ c ∈ keysFin m := by
        intro i hi
        obtain ⟨c, hc, hrest⟩ := iterP_prefix hn (Nat.le_of_lt hi)
        refine ⟨c, hc, ?_⟩
        have h1 : 1 ≤ n - i := by omega
        obtain ⟨d, hd, _⟩ := iterP_prefix hrest h1
        rcases hp : pmF m c with _ | w
        · rw [show (1 : Nat) = 0 + 1 from rfl] at hd
          simp [iterP, hp] at hd
        · exact cur_mem_keysFin hp
      have hmaps : ∀ i ∈ Finset.range ((keysFin m).card + 1),
          (iterP (pmF m) i a).getD 0 ∈ keysFin m := by
        intro i hir
        simp only [Finset.mem_range] at hir
        obtain ⟨c, hc, hck⟩ := hnode i (by omega)
        simpa [hc] using hck
      obtain ⟨i, hi, j, hj, hij, hfij⟩ :=
        Finset.exists_ne_map_eq_of_card_lt_of_maps_to (by simp) hmaps
      simp only [Finset.mem_range] at hi hj
      rcases Nat.lt_or_ge i j with hlt | hge
      · obtain ⟨ci, hci, _⟩ := hnode i (by omega)
        obtain ⟨cj, hcj, hcjb⟩ := iterP_prefix hn (by omega : j ≤ n)
        have hceq : ci = cj := by
          rw [hci, hcj] at hfij
          simpa using hfij
        have hshort : iterP (pmF m) (i + (n - j)) a = some b := by
          rw [iterP_add, hci, hceq]
          exact hcjb
        exact ih (i + (n - j)) (by omega) hshort
      · have hlt : j < i := by omega
        obtain ⟨cj, hcj, _⟩ := hnode j (by omega)
        obtain ⟨ci, hci, hcib⟩ := iterP_prefix hn (by omega : i ≤ n)
        have hceq : cj = ci := by
          rw [hci, hcj] at hfij
          exact (by simpa using hfij : ci = cj).symm
        have hshort : iterP (pmF m) (j + (n - i)) a = some b := by
          rw [iterP_add, hcj, hceq]
          exact hcib
        exact ih (j + (n - i)) (by omega) hshort

/-- Soundness of the fuelled descendant computation: every member is a
strict descendant (requires unique keys, as in a Python dict). -/
theorem get_descendants_fuel_sound (m : List (Int × Option Int))
    (hnd : (dkeys m).Nodup) :
    ∀ (n : Nat) (sid x : Int), x ∈ get_descendants_fuel m n sid →
      IsDescendant m sid x := by
  intro n
  induction n with
  | zero => intro sid x hx; simp [get_descendants_fuel] at hx
  | succ n ih =>
    intro sid x hx
    unfold get_descendants_fuel at hx
    rw [mem_foldl_union] at hx
    rcases hx with hx | ⟨p, hp, hx⟩
    · simp at hx
    · obtain ⟨hpm, hpsid⟩ := List.mem_filter.mp hp
      have hpf : pmF m p.1 = some sid := by
        have : dget m p.1 = some p.2 := mem_dget hnd (by
          rcases p with ⟨k, v⟩; exact hpm)
        unfold pmF
        rw [this]
        simpa using of_decide_eq_true hpsid
      rcases Finset.mem_union.mp hx with hx | hx
      · obtain rfl : x = p.1 := by simpa using hx
        exact ⟨0, by simp [iterP, hpf]⟩
      · obtain ⟨k, hk⟩ := ih p.1 x hx
        refine ⟨k + 1, ?_⟩
        rw [iterP_add, hk]
        simp [iterP, hpf]

/-- Completeness of the fuelled descendant computation for chains not longer
than the fuel. -/
theorem get_descendants_fuel_complete (m : List (Int × Option Int)) :
    ∀ (k : Nat) (sid x : Int), iterP (pmF m) (k + 1) x = some sid →
      ∀ n, k + 1 ≤ n → x ∈ get_descendants_fuel m n sid := by
  intro k
  induction k using Nat.strong_induction_on with
  | _ k ih =>
    intro sid x hchain n hn
    obtain ⟨c, hc, hlast⟩ := iterP_prefix hchain (by omega : k ≤ k + 1)
    have hfc : pmF m c = some sid := by
      have heq : k + 1 - k = 1 := by omega
      rw [heq] at hlast
      have h1 : (match pmF m c with
          | none => none
          | some p => iterP (pmF m) 0 p) = some sid := hlast
      rcases hp : pmF m c with _ | w
      · rw [hp] at h1; exact Option.noConfusion h1
      · rw [hp] at h1
        have h2 : w = sid := by
          have h3 : some w = some sid := h1
          injection h3
        exact congrArg some h2
    have hcm : (c, some sid) ∈ m := dget_mem (by
      unfold pmF at hfc
      rcases hd : dget m c with _ | v
      · rw [hd] at hfc; exact Option.noConfusion hfc
      · rw [hd] at hfc
        have hv : v = some sid := by
          rcases v with _ | w
          · exact Option.noConfusion hfc
          · simpa using hfc
        rw [hv])
    obtain ⟨n', rfl⟩ : ∃ n', n = n' + 1 := ⟨n - 1, by omega⟩
    unfold get_descendants_fuel
    rw [mem_foldl_union]
    refine Or.inr ⟨(c, some sid), List.mem_filter.mpr ⟨hcm, by simp⟩, ?_⟩
    rcases k with _ | k'
    · obtain rfl : x = c := by simpa [iterP] using hc
      simp
    · refine Finset.mem_union_right _ (ih k' (by omega) c x hc n' (by omega))

/-- The descendant set computed with fuel `m.length` is exactly the set of
strict descendants. -/
theorem get_descendants_eq (m : List (Int × Option Int))
    (hnd : (dkeys m).Nodup) (sid x : Int) (hx : x ≠ sid) :
    x ∈ get_descendants sid m ↔ IsDescendant m sid x := by
  constructor
  · exact get_descendants_fuel_sound m hnd _ sid x
  · intro ⟨k, hk⟩
    obtain ⟨n', hn', hshort⟩ := iterP_shorten m x sid _ hk
    rcases n' with _ | k'
    · exact absurd (by simpa [iterP] using hshort) hx
    · apply get_descendants_fuel_complete m k' sid x hshort
      calc k' + 1 ≤ (keysFin m).card := hn'
        _ ≤ (dkeys m).length := List.toFinset_card_le _
        _ = m.length := by simp [dkeys]

/-! ## Request models and helpers -/

/-- `SkillCreate` (`app/models/skill.py`): name plus optional parent. The
1-255 length constraint on `name` is enforced by the pydantic marshalling
layer, outside the modelled core. -/
structure SkillCreate where
  name : String
  parent_id : Option Int := none
deriving DecidableEq, Repr

/-- `SkillUpdate` (`app/models/skill.py`) together with pydantic's
field-was-provided tracking (`model_dump(exclude_unset=True)`):
`parent_id = none` models an absent field, `parent_id = some v` a field
present with value `v` (where `v = none` is an explicit JSON null). -/
structure SkillUpdate where
  name : Option String := none
  parent_id : Option (Option Int) := none
deriving DecidableEq, Repr

/-- Plain attribute access `skill_data.parent_id` (absent fields read as
`None`). -/
def SkillUpdate.parentAttr (sd : SkillUpdate) : Option Int := sd.parent_id.join

/-- `CounterCreate` (`app/models/counter.py`). -/
structure CounterCreate where
  name : String
  unit : Option String := none
  value : ℚ := 0
  target : Option ℚ := none
deriving DecidableEq, Repr

/-- An apostrophe character for error-detail strings. -/
def squote : String := ⟨[Char.ofNat 39]⟩

/-- Python's `str.lower()`, as a structural map over the character list
(identical to `String.toLower` and to CPython on the ASCII names the
system handles). -/
def str_lower (s : String) : String := ⟨s.data.map Char.toLower⟩

/-- `_validate_unique_root_name` (`app/routers/skills.py` lines 24-40): does
some root skill already carry this name, case-insensitively? -/
def rootNameTaken (skills : List (Int × Skill)) (name : String) : Bool :=
  skills.any (fun p =>
    decide (p.2.parent_id = none ∧ str_lower p.2.name = str_lower name))

/-- `get_next_skill_id` (`app/storage_db.py` lines 64-68):
`1` on an empty collection, `max(keys) + 1` otherwise. -/
def get_next_skill_id (skills : List (Int × Skill)) : Int :=
  match skills with
  | [] => 1
  | (k, _) :: t => (dkeys t).foldl max k + 1

/-- `get_next_counter_id` (`app/storage_db.py` lines 119-123). -/
def get_next_counter_id (counters : List (Int × Counter)) : Int :=
  match counters with
  | [] => 1
  | (k, _) :: t => (dkeys t).foldl max k + 1

/-! ## The hierarchy mutation engine (`app/routers/skills.py`) -/

/-- `create_root_skill` (lines 43-84). -/
def create_root_skill (sd : SkillCreate) (st : St) :
    Except HTTPErr (St × Skill) :=
  if sd.parent_id ≠ none then
    .error ⟨400, "Cannot create subskill at this endpoint. Use POST /skills/{parent_id}/children instead."⟩
  else if rootNameTaken st.skills sd.name then
    .error ⟨409, s!"Root skill with name {squote}{sd.name}{squote} already exists"⟩
  else
    .ok ({ st with
            skills := dset st.skills st.next_skill_id
              ⟨st.next_skill_id, sd.name, none⟩,
            next_skill_id := st.next_skill_id + 1 },
         ⟨st.next_skill_id, sd.name, none⟩)

/-- Does an explicit `parent_id` in the request body contradict the URL
parameter (`create_subskill` lines 406-410)? -/
def bodyParentMismatch (sd : SkillCreate) (parent_id : Int) : Bool :=
  match sd.parent_id with
  | none => false
  | some b => b != parent_id

/-- `create_subskill` (lines 376-438): parent must exist, body parent must
match, then the checker runs on the parent map extended with the new node
before the insert is committed. -/
def create_subskill (parent_id : Int) (sd : SkillCreate) (st : St) :
    Except HTTPErr (St × Skill) :=
  if (dget st.skills parent_id).isNone then
    .error ⟨404, s!"Parent skill with id {parent_id} not found"⟩
  else if bodyParentMismatch sd parent_id then
    .error ⟨400, s!"Parent ID in request body does not match URL parameter ({parent_id})"⟩
  else
    match validate_no_cycle st.next_skill_id (some parent_id)
        (dset (pmList st.skills) st.next_skill_id (some parent_id)) with
    | .error e => .error ⟨409, e.message⟩
    | .ok _ =>
      .ok ({ st with
              skills := dset st.skills st.next_skill_id
                ⟨st.next_skill_id, sd.name, some parent_id⟩,
              next_skill_id := st.next_skill_id + 1 },
           ⟨st.next_skill_id, sd.name, some parent_id⟩)

/-- The parent-resolution of `update_skill` (lines 472-480): the sentinel
`-1` means promote to root, an absent field keeps the current parent. -/
def resolve_parent (sd : SkillUpdate) (existing : Skill) : Option Int :=
  if sd.parentAttr = some (-1) then none
  else if sd.parent_id.isSome then sd.parentAttr
  else existing.parent_id

/-- The final commit of `update_skill` (lines 503-512). -/
def update_skill_apply (skill_id : Int) (sd : SkillUpdate) (st : St)
    (existing : Skill) (new_parent_id : Option Int) : St × Skill :=
  let updated : Skill := ⟨existing.id, sd.name.getD existing.name, new_parent_id⟩
  ({ st with skills := dset st.skills skill_id updated }, updated)

/-- `update_skill` (lines 441-512).  The two arms of the `match` transcribe
the two truth values of Python's `new_parent_id is not None` test guarding
the parent-existence check; the cycle check runs only when the parent
actually changes. -/
def update_skill (skill_id : Int) (sd : SkillUpdate) (st : St) :
    Except HTTPErr (St × Skill) :=
  match dget st.skills skill_id with
  | none => .error ⟨404, s!"Skill with id {skill_id} not found"⟩
  | some existing =>
    match resolve_parent sd existing with
    | some np =>
      if (dget st.skills np).isNone then
        .error ⟨400, s!"Parent skill with id {np} not found"⟩
      else if some np ≠ existing.parent_id then
        match validate_no_cycle skill_id (some np)
            (dset (pmList st.skills) skill_id (some np)) with
        | .error e => .error ⟨409, e.message⟩
        | .ok _ => .ok (update_skill_apply skill_id sd st existing (some np))
      else .ok (update_skill_apply skill_id sd st existing (some np))
    | none =>
      if none ≠ existing.parent_id then
        match validate_no_cycle skill_id none
            (dset (pmList st.skills) skill_id none) with
        | .error e => .error ⟨409, e.message⟩
        | .ok _ => .ok (update_skill_apply skill_id sd st existing none)
      else .ok (update_skill_apply skill_id sd st existing none)

/-- `delete_skill` (lines 515-556): cascading delete of the skill and its
whole descendant set; the Python function returns `None` (a 204), modelled
by the `PUnit` payload.  The counter collection is not touched. -/
def delete_skill (skill_id : Int) (st : St) : Except HTTPErr (St × Unit) :=
  if (dget st.skills skill_id).isNone then
    .error ⟨404, s!"Skill with id {skill_id} not found"⟩
  else
    .ok ({ st with
            skills := st.skills.filter
              (fun p => p.1 ∉ insert skill_id
                (get_descendants skill_id (pmList st.skills))) },
         ())

/-! ## The counters router (`app/routers/counters.py`) -/

/-- `create_counter` (lines 13-56). -/
def create_counter (skill_id : Int) (cd : CounterCreate) (st : St) :
    Except HTTPErr (St × Counter) :=
  if (dget st.skills skill_id).isNone then
    .error ⟨404, s!"Skill with id {skill_id} not found"⟩
  else
    .ok ({ st with
            counters := dset st.counters st.next_counter_id
              ⟨st.next_counter_id, skill_id, cd.name, cd.unit, cd.value, cd.target⟩,
            next_counter_id := st.next_counter_id + 1 },
         ⟨st.next_counter_id, skill_id, cd.name, cd.unit, cd.value, cd.target⟩)

/-- `delete_counter` (lines 141-164). -/
def delete_counter (counter_id : Int) (st : St) :
    Except HTTPErr (St × Unit) :=
  if (dget st.counters counter_id).isNone then
    .error ⟨404, s!"Counter with id {counter_id} not found"⟩
  else
    .ok ({ st with counters := st.counters.filter (fun p => ¬ p.1 = counter_id) },
         ())

/-! ## Sequencing of mutating operations -/

/-- One mutating call against the skill tree: the create-root, create-child
and rename/reparent operations quantified over by the no-cycle invariant. -/
inductive Op where
  | createRoot (sd : SkillCreate)
  | createChild (parent_id : Int) (sd : SkillCreate)
  | update (skill_id : Int) (sd : SkillUpdate)
deriving DecidableEq, Repr

/-- Run one operation; a raised `HTTPException` leaves the module-level
state exactly as it was (every router mutates only after all checks). -/
def runOp (st : St) (op : Op) : St :=
  match op with
  | .createRoot sd =>
    match create_root_skill sd st with
    | .ok (st', _) => st'
    | .error _ => st
  | .createChild pid sd =>
    match create_subskill pid sd st with
    | .ok (st', _) => st'
    | .error _ => st
  | .update sid sd =>
    match update_skill sid sd st with
    | .ok (st', _) => st'
    | .error _ => st

/-- Run a sequence of operations, keeping the successes' effects. -/
def runOps (st : St) (ops : List Op) : St := ops.foldl runOp st

/-- The no-cycle invariant on a state's skill collection. -/
def StAcyclic (st : St) : Prop := Acyclic (pmF (pmList st.skills))

/-! ## Inversion of the mutation operations and preservation of acyclicity -/

theorem dget_pmList (l : List (Int × Skill)) (k : Int) :
    dget (pmList l) k = (dget l k).map Skill.parent_id := by
  induction l with
  | nil => simp [pmList, dget]
  | cons p t ih =>
    obtain ⟨k', sk⟩ := p
    by_cases hk : k' = k
    · simp [pmList, dget, hk]
    · simpa [pmList, dget, hk] using ih

theorem pmList_dset (l : List (Int × Skill)) (k : Int) (sk : Skill) :
    pmList (dset l k sk) = dset (pmList l) k sk.parent_id := by
  induction l with
  | nil => simp [pmList, dset]
  | cons p t ih =>
    obtain ⟨k', sk'⟩ := p
    by_cases hk : k' = k
    · simp [pmList, dset, hk]
    · simp [pmList, dset, hk]
      exact ih

theorem updF_self {f : Int → Option Int} {s : Int} {p : Option Int}
    (h : f s = p) : updF f s p = f := by
  funext k
  unfold updF
  by_cases hk : k = s
  · subst hk; rw [if_pos rfl, h]
  · rw [if_neg hk]

/-- The parent lookup of a stored skill. -/
theorem pmF_of_dget {skills : List (Int × Skill)} {k : Int} {sk : Skill}
    (h : dget skills k = some sk) :
    pmF (pmList skills) k = sk.parent_id := by
  unfold pmF
  rw [dget_pmList, h]
  rfl

theorem create_root_ok {sd : SkillCreate} {st st' : St} {sk : Skill}
    (h : create_root_skill sd st = .ok (st', sk)) :
    sd.parent_id = none ∧ rootNameTaken st.skills sd.name = false ∧
      sk = ⟨st.next_skill_id, sd.name, none⟩ ∧
      st' = { st with skills := dset st.skills st.next_skill_id sk,
                      next_skill_id := st.next_skill_id + 1 } := by
  unfold create_root_skill at h
  by_cases h1 : sd.parent_id = none
  · rw [if_neg (by simp [h1])] at h
    by_cases h2 : rootNameTaken st.skills sd.name
    · rw [if_pos h2] at h
      exact Except.noConfusion h
    · rw [if_neg h2] at h
      injection h with h
      injection h with h3 h4
      exact ⟨h1, Bool.eq_false_iff.mpr h2, h4.symm, by rw [← h3, ← h4]⟩
  · rw [if_pos (by simp [h1])] at h
    exact Except.noConfusion h

theorem create_subskill_ok {parent_id : Int} {sd : SkillCreate} {st st' : St}
    {sk : Skill} (h : create_subskill parent_id sd st = .ok (st', sk)) :
    (dget st.skills parent_id).isSome ∧
      validate_no_cycle st.next_skill_id (some parent_id)
        (dset (pmList st.skills) st.next_skill_id (some parent_id)) = .ok () ∧
      sk = ⟨st.next_skill_id, sd.name, some parent_id⟩ ∧
      st' = { st with skills := dset st.skills st.next_skill_id sk,
                      next_skill_id := st.next_skill_id + 1 } := by
  unfold create_subskill at h
  by_cases h1 : (dget st.skills parent_id).isNone
  · rw [if_pos h1] at h
    exact Except.noConfusion h
  · rw [if_neg h1] at h
    by_cases h2 : bodyParentMismatch sd parent_id
    · rw [if_pos h2] at h
      exact Except.noConfusion h
    · rw [if_neg h2] at h
      rcases hv : validate_no_cycle st.next_skill_id (some parent_id)
          (dset (pmList st.skills) st.next_skill_id (some parent_id)) with e | u
      · rw [hv] at h
        exact Except.noConfusion h
      · obtain ⟨⟩ := u
        rw [hv] at h
        injection h with h
        injection h with h3 h4
        refine ⟨?_, rfl, h4.symm, by rw [← h3, ← h4]⟩
        simpa [Option.isSome_iff_ne_none, Option.isNone_iff_eq_none] using h1

/-- Successful validation never has the skill as its own proposed parent. -/
theorem validate_ok_ne {s np : Int} {m : List (Int × Option Int)}
    (h : validate_no_cycle s (some np) m = .ok ()) : np ≠ s := by
  intro hnp
  rw [validate_some, if_pos hnp.symm] at h
  exact Except.noConfusion h

theorem create_root_preserves {sd : SkillCreate} {st st' : St} {sk : Skill}
    (hac : StAcyclic st) (h : create_root_skill sd st = .ok (st', sk)) :
    StAcyclic st' := by
  obtain ⟨-, -, hsk, hst'⟩ := create_root_ok h
  unfold StAcyclic
  rw [hst']
  show Acyclic (pmF (pmList (dset st.skills st.next_skill_id sk)))
  rw [pmList_dset, pmF_dset, hsk]
  exact acyclic_updF_none _ hac

theorem create_subskill_preserves {parent_id : Int} {sd : SkillCreate}
    {st st' : St} {sk : Skill} (hac : StAcyclic st)
    (h : create_subskill parent_id sd st = .ok (st', sk)) : StAcyclic st' := by
  obtain ⟨-, hval, hsk, hst'⟩ := create_subskill_ok h
  unfold StAcyclic
  rw [hst']
  show Acyclic (pmF (pmList (dset st.skills st.next_skill_id sk)))
  rw [pmList_dset, pmF_dset, hsk]
  have hne := validate_ok_ne hval
  obtain ⟨hnr, -⟩ := (validate_ok_iff _ _ _ hne).mp hval
  rw [pmF_dset] at hnr
  exact acyclic_updF_some hac hnr

theorem update_skill_ok {skill_id : Int} {sd : SkillUpdate} {st st' : St}
    {sk : Skill} (h : update_skill skill_id sd st = .ok (st', sk)) :
    ∃ existing, dget st.skills skill_id = some existing ∧
      (st', sk) = update_skill_apply skill_id sd st existing
        (resolve_parent sd existing) ∧
      (resolve_parent sd existing ≠ existing.parent_id →
        validate_no_cycle skill_id (resolve_parent sd existing)
          (dset (pmList st.skills) skill_id (resolve_parent sd existing)) =
          .ok ()) := by
  unfold update_skill at h
  rcases he : dget st.skills skill_id with _ | existing
  · rw [he] at h
    exact Except.noConfusion h
  · rw [he] at h
    dsimp only at h
    refine ⟨existing, rfl, ?_⟩
    rcases hr : resolve_parent sd existing with _ | np
    · rw [hr] at h
      dsimp only at h
      by_cases hch : none ≠ existing.parent_id
      · rw [if_pos hch] at h
        rcases hv : validate_no_cycle skill_id none
            (dset (pmList st.skills) skill_id none) with e | u
        · rw [hv] at h
          exact Except.noConfusion h
        · obtain ⟨⟩ := u
          rw [hv] at h
          injection h with h
          exact ⟨h.symm, fun _ => rfl⟩
      · rw [if_neg hch] at h
        injection h with h
        push_neg at hch
        exact ⟨h.symm, fun hne => absurd hch hne⟩
    · rw [hr] at h
      dsimp only at h
      by_cases h1 : (dget st.skills np).isNone
      · rw [if_pos h1] at h
        exact Except.noConfusion h
      · rw [if_neg h1] at h
        by_cases hch : some np ≠ existing.parent_id
        · rw [if_pos hch] at h
          rcases hv : validate_no_cycle skill_id (some np)
              (dset (pmList st.skills) skill_id (some np)) with e | u
          · rw [hv] at h
            exact Except.noConfusion h
          · obtain ⟨⟩ := u
            rw [hv] at h
            injection h with h
            exact ⟨h.symm, fun _ => rfl⟩
        · rw [if_neg hch] at h
          injection h with h
          push_neg at hch
          exact ⟨h.symm, fun hne => absurd hch hne⟩

theorem update_skill_preserves {skill_id : Int} {sd : SkillUpdate}
    {st st' : St} {sk : Skill} (hac : StAcyclic st)
    (h : update_skill skill_id sd st = .ok (st', sk)) : StAcyclic st' := by
  obtain ⟨existing, hex, happ, hval⟩ := update_skill_ok h
  have hsk : st'.skills = dset st.skills skill_id
      (Skill.mk existing.id (sd.name.getD existing.name)
        (resolve_parent sd existing)) := by
    have := congrArg (fun q : St × Skill => q.1.skills) happ
    simpa [update_skill_apply] using this
  unfold StAcyclic
  rw [hsk, pmList_dset, pmF_dset]
  dsimp only
  by_cases hch : resolve_parent sd existing = existing.parent_id
  · rw [hch, updF_self (pmF_of_dget hex)]
    exact hac
  · have hv := hval hch
    rcases hr : resolve_parent sd existing with _ | np
    · exact acyclic_updF_none _ hac
    · rw [hr] at hv
      have hne := validate_ok_ne hv
      obtain ⟨hnr, -⟩ := (validate_ok_iff _ _ _ hne).mp hv
      rw [pmF_dset] at hnr
      exact acyclic_updF_some hac hnr

theorem runOp_preserves {st : St} {op : Op} (hac : StAcyclic st) :
    StAcyclic (runOp st op) := by
  cases op with
  | createRoot sd =>
    rcases h : create_root_skill sd st with e | ⟨st', sk⟩
    · simpa [runOp, h] using hac
    · simpa [runOp, h] using create_root_preserves hac h
  | createChild pid sd =>
    rcases h : create_subskill pid sd st with e | ⟨st', sk⟩
    · simpa [runOp, h] using hac
    · simpa [runOp, h] using create_subskill_preserves hac h
  | update sid sd =>
    rcases h : update_skill sid sd st with e | ⟨st', sk⟩
    · simpa [runOp, h] using hac
    · simpa [runOp, h] using update_skill_preserves hac h

theorem runOps_preserves {st : St} {ops : List Op} (hac : StAcyclic st) :
    StAcyclic (runOps st ops) := by
  induction ops generalizing st with
  | nil => exact hac
  | cons op t ih => exact ih (runOp_preserves hac)

/-- A reparent whose proposed assignment reaches back to the skill is
rejected with a 409 `ConflictError` carrying one of the checker's
messages. -/
theorem update_skill_cycle_rejected {skill_id : Int} {sd : SkillUpdate}
    {st : St} {existing : Skill} {np : Int}
    (hac : StAcyclic st)
    (hex : dget st.skills skill_id = some existing)
    (hres : resolve_parent sd existing = some np)
    (hnp : (dget st.skills np).isSome)
    (hcyc : ReachUp (pmF (dset (pmList st.skills) skill_id (some np))) np
      skill_id) :
    ∃ e : CycleErr, update_skill skill_id sd st = .error ⟨409, e.message⟩ := by
  have hchange : some np ≠ existing.parent_id := by
    intro heq
    have hf : pmF (pmList st.skills) skill_id = some np := by
      rw [pmF_of_dget hex, ← heq]
    have hsame : pmF (dset (pmList st.skills) skill_id (some np)) =
        pmF (pmList st.skills) := by
      rw [pmF_dset, updF_self hf]
    rw [hsame] at hcyc
    exact hac skill_id np hf hcyc
  obtain ⟨e, hv⟩ : ∃ e, validate_no_cycle skill_id (some np)
      (dset (pmList st.skills) skill_id (some np)) = .error e := by
    by_cases hsn : skill_id = np
    · exact ⟨.selfParent, by rw [validate_some, if_pos hsn]⟩
    · refine ⟨.wouldCycle skill_id np, ?_⟩
      exact (validate_wouldCycle_iff _ _ _ (fun hh => hsn hh.symm)).mpr hcyc
  refine ⟨e, ?_⟩
  unfold update_skill
  rw [hex]
  dsimp only
  rw [hres]
  dsimp only
  rw [if_neg (by simpa [Option.isNone_iff_eq_none] using
    Option.isSome_iff_ne_none.mp hnp)]
  rw [if_pos hchange, hv]

/-! ## An executable sufficient check for acyclicity, used to discharge
`StAcyclic` hypotheses on concrete states. -/

/-- Does the parent chain from `a` reach a missing/`None` parent within the
given number of steps? -/
def chainTerm (m : List (Int × Option Int)) : Nat → Int → Bool
  | 0, a => decide (pmF m a = none)
  | n + 1, a =>
    match pmF m a with
    | none => true
    | some p => chainTerm m n p

theorem chainTerm_terminates {m : List (Int × Option Int)} :
    ∀ {n : Nat} {a : Int}, chainTerm m n a = true →
      ∃ b, ReachUp (pmF m) a b ∧ pmF m b = none := by
  intro n
  induction n with
  | zero =>
    intro a h
    exact ⟨a, .refl a, of_decide_eq_true h⟩
  | succ n ih =>
    intro a h
    unfold chainTerm at h
    rcases hp : pmF m a with _ | p
    · exact ⟨a, .refl a, hp⟩
    · rw [hp] at h
      obtain ⟨b, hrb, hnb⟩ := ih h
      exact ⟨b, .step hp hrb, hnb⟩

theorem acyclic_of_chainTerm {m : List (Int × Option Int)} {n : Nat}
    (h : ∀ k ∈ dkeys m, chainTerm m n k = true) : Acyclic (pmF m) := by
  intro k p hk hr
  have hkm : k ∈ dkeys m := by
    rw [← dget_isSome_iff_mem]
    unfold pmF at hk
    rcases hd : dget m k with _ | v
    · rw [hd] at hk; exact Option.noConfusion hk
    · simp
  obtain ⟨b, hrb, hnb⟩ := chainTerm_terminates (h k hkm)
  obtain ⟨q, hq, -⟩ := cycle_propagates ⟨p, hk, hr⟩ hrb
  rw [hnb] at hq
  exact Option.noConfusion hq

/-- `StAcyclic` from the executable check on the skill collection. -/
theorem stAcyclic_of_check (st : St) (n : Nat)
    (h : (dkeys (pmList st.skills)).all (chainTerm (pmList st.skills) n)
      = true) : StAcyclic st :=
  acyclic_of_chainTerm (by
    intro k hk
    exact List.all_eq_true.mp h k hk)

/-! ## Claim C1 -/

/-- C1: for every sequence of successful create-root, create-child and
update (rename/reparent) operations starting from an acyclic skill map, the
parent-pointer graph remains acyclic; and any update whose proposed parent
assignment would create a cycle (the skill is reachable upward from the
proposed parent in the proposed map) is rejected with a 409 `ConflictError`
while the skill map is left exactly as it was before the call. -/
theorem C1_no_cycle_invariant (st : St) (ops : List Op)
    (hac : StAcyclic st) :
    StAcyclic (runOps st ops) ∧
      (∀ (skill_id np : Int) (sd : SkillUpdate) (existing : Skill),
        dget st.skills skill_id = some existing →
        resolve_parent sd existing = some np →
        (dget st.skills np).isSome →
        ReachUp (pmF (dset (pmList st.skills) skill_id (some np))) np
          skill_id →
        (∃ e : CycleErr,
          update_skill skill_id sd st = .error ⟨409, e.message⟩) ∧
          runOp st (.update skill_id sd) = st) := by
  refine ⟨runOps_preserves hac, ?_⟩
  intro sid np sd existing hex hres hnp hcyc
  obtain ⟨e, he⟩ := update_skill_cycle_rejected hac hex hres hnp hcyc
  refine ⟨⟨e, he⟩, ?_⟩
  simp [runOp, he]

/-- The spec's three-node chain A → B → C (ids 1 → 2 → 3). -/
def stABC : St :=
  ⟨[(1, ⟨1, "A", none⟩), (2, ⟨2, "B", some 1⟩), (3, ⟨3, "C", some 2⟩)],
   4, [], 1⟩

theorem C1_no_cycle_invariant_witness :
    StAcyclic (runOps stABC [.createRoot ⟨"D", none⟩]) ∧
      (∃ e : CycleErr,
        update_skill 1 ⟨none, some (some 3)⟩ stABC = .error ⟨409, e.message⟩) ∧
      runOp stABC (.update 1 ⟨none, some (some 3)⟩) = stABC := by
  have hac : StAcyclic stABC := stAcyclic_of_check stABC 3 (by decide)
  have h := C1_no_cycle_invariant stABC [.createRoot ⟨"D", none⟩] hac
  refine ⟨h.1, ?_⟩
  have hr : ReachUp (pmF (dset (pmList stABC.skills) 1 (some 3))) 3 1 :=
    @ReachUp.step _ 3 2 1 (by decide)
      (@ReachUp.step _ 2 1 1 (by decide) (.refl 1))
  have h2 := h.2 1 3 ⟨none, some (some 3)⟩ ⟨1, "A", none⟩ (by decide)
    (by decide) (by decide) hr
  exact ⟨h2.1, h2.2⟩

/-! ## Claim C7 -/

/-- C7: the reparent validator satisfies: a null proposed parent always
succeeds; a proposed parent equal to the skill fails with the self-parent
error; otherwise the upward walk from the proposed parent fails with the
would-create-a-cycle error exactly if the skill is reachable, succeeds
exactly if the chain terminates at a missing/null parent without reaching
the skill, and otherwise (the chain revisits a node) fails with the
distinct existing-cycle error. -/
theorem C7_validate_characterization (s : Int)
    (m : List (Int × Option Int)) :
    validate_no_cycle s none m = .ok () ∧
      (∀ np, validate_no_cycle s (some np) m = .error .selfParent ↔ np = s) ∧
      (∀ np, np ≠ s →
        (validate_no_cycle s (some np) m = .error (.wouldCycle s np) ↔
          ReachUp (pmF m) np s)) ∧
      (∀ np, np ≠ s →
        (validate_no_cycle s (some np) m = .ok () ↔
          (¬ ReachUp (pmF m) np s ∧
            ∃ a, ReachUp (pmF m) np a ∧ pmF m a = none))) ∧
      (∀ np, np ≠ s →
        ((∃ x, validate_no_cycle s (some np) m = .error (.existingCycle x)) ↔
          (¬ ReachUp (pmF m) np s ∧
            ¬ ∃ a, ReachUp (pmF m) np a ∧ pmF m a = none))) :=
  ⟨validate_none s m,
   fun np => validate_selfParent_iff s np m,
   fun np hns => validate_wouldCycle_iff s np m hns,
   fun np hns => validate_ok_iff s np m hns,
   fun np hns => validate_existingCycle_iff s np m hns⟩

theorem C7_validate_characterization_witness :
    validate_no_cycle 1 none [(1, none)] = .ok () ∧
      validate_no_cycle 1 (some 1) [(1, none)] = .error .selfParent ∧
      validate_no_cycle 1 (some 2) [(1, none), (2, some 1)] =
        .error (.wouldCycle 1 2) := by
  have h := C7_validate_characterization 1 [(1, none)]
  have h2 := C7_validate_characterization 1 [(1, none), (2, some 1)]
  refine ⟨h.1, (h.2.1 1).mpr rfl, ?_⟩
  exact (h2.2.2.1 2 (by decide)).mpr (.step (by decide) (.refl 1))

/-! ## Cascading delete: claims C2, C5, C10 -/

deriving instance DecidableEq for Except

/-- Lookup after filtering out a key set: surviving keys keep their binding,
deleted keys disappear (deleting each member of a key set one by one from a
dict is the same as filtering the dict on the key set). -/
theorem dget_filter_set {α : Type} (l : List (Int × α)) (S : Finset Int)
    (k : Int) :
    dget (l.filter (fun p => p.1 ∉ S)) k =
      if k ∈ S then none else dget l k := by
  induction l with
  | nil => simp [dget]
  | cons p t ih =>
    obtain ⟨k', v⟩ := p
    rw [List.filter_cons]
    by_cases hm : k' ∈ S
    · rw [if_neg (by simpa using hm), ih]
      by_cases hk : k' = k
      · subst hk
        simp [hm]
      · by_cases hkS : k ∈ S
        · simp [hkS]
        · simp [hkS, dget, hk]
    · rw [if_pos (by simpa using hm)]
      by_cases hk : k' = k
      · subst hk
        simp [dget, hm]
      · simp only [dget, if_neg hk]
        rw [ih]

theorem dkeys_pmList (l : List (Int × Skill)) :
    dkeys (pmList l) = dkeys l := by
  simp [dkeys, pmList]

/-- The state produced by a successful cascading delete. -/
def delete_result (skill_id : Int) (st : St) : St :=
  { st with
      skills := st.skills.filter
        (fun p => p.1 ∉ insert skill_id
          (get_descendants skill_id (pmList st.skills))) }

theorem delete_skill_ok {skill_id : Int} {st st' : St} {r : Unit}
    (h : delete_skill skill_id st = .ok (st', r)) :
    (dget st.skills skill_id).isSome ∧ st' = delete_result skill_id st := by
  unfold delete_skill at h
  by_cases h1 : (dget st.skills skill_id).isNone
  · rw [if_pos h1] at h
    exact Except.noConfusion h
  · rw [if_neg h1] at h
    injection h with h
    injection h with h2 h3
    refine ⟨?_, ?_⟩
    · simpa [Option.isSome_iff_ne_none, Option.isNone_iff_eq_none] using h1
    · rw [← h2]
      rfl

theorem delete_result_skills (skill_id : Int) (st : St) :
    (delete_result skill_id st).skills = st.skills.filter
      (fun p => p.1 ∉ insert skill_id
        (get_descendants skill_id (pmList st.skills))) := rfl

/-- C2: for every skill map (with dict-unique keys; the Python recursion of
`get_descendants` terminates only on acyclic maps, so the claim is settled
on those) and every existing skill X, the cascading delete of X removes
from the skill collection exactly `{X} ∪ descendants(X)` and no other
skill; every skill outside that set is still present afterwards with all of
its fields unchanged; and deleting a non-existent skill id fails with a 404
`NotFoundError`. -/
theorem C2_delete_exact (st : St) (skill_id : Int)
    (hnd : (dkeys st.skills).Nodup) (hac : StAcyclic st) :
    (dget st.skills skill_id = none →
        delete_skill skill_id st =
          .error ⟨404, s!"Skill with id {skill_id} not found"⟩) ∧
      (∀ (st' : St) (r : Unit), delete_skill skill_id st = .ok (st', r) →
        (∀ k, (k = skill_id ∨ IsDescendant (pmList st.skills) skill_id k) →
          dget st'.skills k = none) ∧
        (∀ k, k ≠ skill_id →
          ¬ IsDescendant (pmList st.skills) skill_id k →
          dget st'.skills k = dget st.skills k)) := by
  constructor
  · intro habs
    unfold delete_skill
    rw [if_pos (by simp [habs])]
  · intro st' r h
    obtain ⟨-, hst'⟩ := delete_skill_ok h
    have hsk : st'.skills = st.skills.filter
        (fun p => p.1 ∉ insert skill_id
          (get_descendants skill_id (pmList st.skills))) := by
      rw [hst', delete_result_skills]
    have hndm : (dkeys (pmList st.skills)).Nodup := by
      rw [dkeys_pmList]; exact hnd
    constructor
    · intro k hk
      rw [hsk, dget_filter_set]
      rw [if_pos]
      rcases hk with rfl | hk
      · exact Finset.mem_insert_self _ _
      · by_cases hks : k = skill_id
        · exact hks ▸ Finset.mem_insert_self _ _
        · exact Finset.mem_insert_of_mem
            ((get_descendants_eq (pmList st.skills) hndm skill_id k hks).mpr hk)
    · intro k hks hkd
      rw [hsk, dget_filter_set]
      rw [if_neg]
      intro hmem
      rcases Finset.mem_insert.mp hmem with rfl | hmem
      · exact hks rfl
      · exact hkd (get_descendants_fuel_sound (pmList st.skills) hndm _
          skill_id k hmem)

/-- The state left after deleting skill 2 from `stABC`. -/
def stAonly : St := ⟨[(1, ⟨1, "A", none⟩)], 4, [], 1⟩

theorem C2_delete_exact_witness :
    delete_skill 2 stABC = .ok (stAonly, ()) ∧
      dget stAonly.skills 2 = none ∧ dget stAonly.skills 3 = none ∧
      dget stAonly.skills 1 = some ⟨1, "A", none⟩ ∧
      delete_skill 5 stABC = .error ⟨404, "Skill with id 5 not found"⟩ := by
  have hnd : (dkeys stABC.skills).Nodup := by decide
  have hac : StAcyclic stABC := stAcyclic_of_check stABC 3 (by decide)
  have h := C2_delete_exact stABC 2 hnd hac
  have h404 := (C2_delete_exact stABC 5 hnd hac).1 (by decide)
  have hd : delete_skill 2 stABC = .ok (stAonly, ()) := by decide
  obtain ⟨hdel, hkeep⟩ := h.2 stAonly () hd
  have h1nd : ¬ IsDescendant (pmList stABC.skills) 2 1 := by
    intro hd1
    have hmem := (get_descendants_eq (pmList stABC.skills) (by decide) 2 1
      (by decide)).mpr hd1
    exact absurd hmem (by decide)
  refine ⟨hd, hdel 2 (Or.inl rfl), hdel 3 (Or.inr ⟨0, by decide⟩), ?_, h404⟩
  rw [hkeep 1 (by decide) h1nd]
  decide

/-- C5 counterexample: the return value of the delete operation is the bare
`None` of the 204 response.  Two successful deletions that remove different
ID sets return identical payloads, so the removed-ID set is not reported to
the caller — refuting the claim that the operation returns it. -/
theorem C5_counterexample :
    (delete_skill 3 stABC).map Prod.snd = .ok () ∧
      (delete_skill 2 stABC).map Prod.snd = .ok () ∧
      ¬ ((delete_skill 3 stABC).map (fun q => dkeys q.1.skills) =
        (delete_skill 2 stABC).map (fun q => dkeys q.1.skills)) := by
  decide

/-- C5 amended: the cascading delete of an existing skill succeeds, but its
return value is Python's `None` (HTTP 204 No Content): the value returned
to the caller is the same across all successful deletions, so no removed-ID
set is reported and dependent-counter cleanup cannot be driven from it. -/
theorem C5_amended_returns_none (st : St) (skill_id : Int)
    (hex : (dget st.skills skill_id).isSome) :
    (∃ st' : St, delete_skill skill_id st = .ok (st', ())) ∧
      (∀ (st1 st2 : St) (s1 s2 : Int) (a b : St × Unit),
        delete_skill s1 st1 = .ok a → delete_skill s2 st2 = .ok b →
        a.2 = b.2) := by
  constructor
  · rcases hd : delete_skill skill_id st with e | ⟨st', r⟩
    · exfalso
      unfold delete_skill at hd
      rw [if_neg (by simpa [Option.isNone_iff_eq_none] using
        Option.isSome_iff_ne_none.mp hex)] at hd
      exact Except.noConfusion hd
    · obtain ⟨⟩ := r
      refine ⟨st', ?_⟩
      exact rfl
  · intro st1 st2 s1 s2 a b h1 h2
    rfl

theorem C5_amended_returns_none_witness :
    ∃ st' : St, delete_skill 2 stABC = .ok (st', ()) :=
  (C5_amended_returns_none stABC 2 (by decide)).1

/-- C10: the cascading delete leaves the counter collection completely
unchanged — no counter is removed or modified, including counters whose
`skill_id` lies in the deleted set `{X} ∪ descendants(X)`, which therefore
remain in the collection as orphans referencing skills that no longer
exist. -/
theorem C10_delete_counters_frame (st : St) (skill_id : Int)
    (hnd : (dkeys st.skills).Nodup) :
    ∀ (st' : St) (r : Unit), delete_skill skill_id st = .ok (st', r) →
      st'.counters = st.counters ∧
      (∀ cid c, dget st.counters cid = some c →
        dget st'.counters cid = some c) ∧
      (∀ cid c, dget st.counters cid = some c →
        (c.skill_id = skill_id ∨
          IsDescendant (pmList st.skills) skill_id c.skill_id) →
        dget st'.skills c.skill_id = none) := by
  intro st' r h
  obtain ⟨-, hst'⟩ := delete_skill_ok h
  have hcnt : st'.counters = st.counters := by rw [hst']; rfl
  refine ⟨hcnt, fun cid c hc => by rw [hcnt]; exact hc, ?_⟩
  intro cid c hc hdel
  have hndm : (dkeys (pmList st.skills)).Nodup := by
    rw [dkeys_pmList]; exact hnd
  have hsk : st'.skills = st.skills.filter
      (fun p => p.1 ∉ insert skill_id
        (get_descendants skill_id (pmList st.skills))) := by
    rw [hst', delete_result_skills]
  rw [hsk, dget_filter_set]
  rw [if_pos]
  rcases hdel with heq | hdd
  · exact heq ▸ Finset.mem_insert_self _ _
  · by_cases hks : c.skill_id = skill_id
    · exact hks ▸ Finset.mem_insert_self _ _
    · exact Finset.mem_insert_of_mem
        ((get_descendants_eq (pmList st.skills) hndm skill_id c.skill_id
          hks).mpr hdd)

/-- The A → B → C state with a counter attached to C. -/
def stABCctr : St :=
  ⟨[(1, ⟨1, "A", none⟩), (2, ⟨2, "B", some 1⟩), (3, ⟨3, "C", some 2⟩)],
   4, [(1, ⟨1, 3, "Hours", some "h", 5, none⟩)], 2⟩

/-- The state left after deleting skill 2 from `stABCctr`: the counter on
the deleted skill 3 is still there. -/
def stAorph : St := ⟨[(1, ⟨1, "A", none⟩)], 4,
  [(1, ⟨1, 3, "Hours", some "h", 5, none⟩)], 2⟩

theorem C10_delete_counters_frame_witness :
    delete_skill 2 stABCctr = .ok (stAorph, ()) ∧
      stAorph.counters = stABCctr.counters ∧
      dget stAorph.counters 1 = some ⟨1, 3, "Hours", some "h", 5, none⟩ ∧
      dget stAorph.skills 3 = none := by
  have hd : delete_skill 2 stABCctr = .ok (stAorph, ()) := by decide
  obtain ⟨hfr, hkeep, horph⟩ :=
    C10_delete_counters_frame stABCctr 2 (by decide) stAorph () hd
  exact ⟨hd, hfr, hkeep 1 _ (by decide),
    horph 1 ⟨1, 3, "Hours", some "h", 5, none⟩ (by decide)
      (Or.inr ⟨0, by decide⟩)⟩

/-! ## Claim C6: ID allocation -/

theorem foldl_max_le_init (t : List Int) (a : Int) : a ≤ t.foldl max a := by
  induction t generalizing a with
  | nil => exact le_refl a
  | cons x xs ih => exact le_trans (le_max_left a x) (ih (max a x))

theorem foldl_max_le_mem (t : List Int) :
    ∀ (a x : Int), x ∈ t → x ≤ t.foldl max a := by
  induction t with
  | nil => intro a x hx; simp at hx
  | cons y ys ih =>
    intro a x hx
    rcases List.mem_cons.mp hx with rfl | hx
    · exact le_trans (le_max_right a x) (foldl_max_le_init ys (max a x))
    · exact ih (max a y) x hx

theorem foldl_max_mem (t : List Int) (a : Int) :
    t.foldl max a = a ∨ t.foldl max a ∈ t := by
  induction t generalizing a with
  | nil => exact Or.inl rfl
  | cons x xs ih =>
    rcases ih (max a x) with h | h
    · rcases max_choice a x with hm | hm
      · exact Or.inl (by rw [List.foldl_cons, h, hm])
      · exact Or.inr (by rw [List.foldl_cons, h, hm]; exact List.mem_cons_self _ _)
    · exact Or.inr (List.mem_cons_of_mem _ h)

/-- The empty state left by the full-clear administrative operation
(`DELETE /api/data` in `app/main.py` clears both collections and resets both
allocators to 1, as does the replace-all import). -/
def clearedSt : St := ⟨[], 1, [], 1⟩

/-- C6 amended: the allocator function `get_next_skill_id` (and its counter
analog) returns 1 on an empty collection and `max(existing ids) + 1`
otherwise — in particular 6 after inserting IDs {1,3,5}; the create
operation assigns the module counter `next_skill_id` and bumps it, so a
state whose counter equals the allocator value (e.g. a freshly loaded
state, or the cleared state, where the next assigned ID is 1) assigns
`max + 1`; but the counter is never lowered by a delete, so after deletions
the assigned ID can exceed `max + 1`. -/
theorem C6_amended_id_allocation :
    (get_next_skill_id [] = 1 ∧ get_next_counter_id [] = 1) ∧
      (∀ (skills : List (Int × Skill)) (k : Int), k ∈ dkeys skills →
        k < get_next_skill_id skills) ∧
      (∀ skills : List (Int × Skill), skills ≠ [] →
        ∃ k ∈ dkeys skills, get_next_skill_id skills = k + 1) ∧
      get_next_skill_id
        [(1, ⟨1, "A", none⟩), (3, ⟨3, "B", none⟩), (5, ⟨5, "C", none⟩)] = 6 ∧
      (∀ (st : St) (sd : SkillCreate) (st' : St) (sk : Skill),
        st.next_skill_id = get_next_skill_id st.skills →
        create_root_skill sd st = .ok (st', sk) →
        sk.id = get_next_skill_id st.skills ∧
          st'.next_skill_id = st.next_skill_id + 1) ∧
      (∀ (sd : SkillCreate) (st' : St) (sk : Skill),
        create_root_skill sd clearedSt = .ok (st', sk) → sk.id = 1) ∧
      (∀ (sid : Int) (st st' : St) (r : Unit),
        delete_skill sid st = .ok (st', r) →
        st'.next_skill_id = st.next_skill_id) := by
  refine ⟨⟨rfl, rfl⟩, ?_, ?_, by decide, ?_, ?_, ?_⟩
  · intro skills k hk
    match skills, hk with
    | (k0, v0) :: t, hk =>
      show k < (dkeys t).foldl max k0 + 1
      rcases List.mem_cons.mp hk with rfl | hk
      · exact lt_of_le_of_lt (foldl_max_le_init (dkeys t) k) (by omega)
      · exact lt_of_le_of_lt (foldl_max_le_mem (dkeys t) k0 k hk) (by omega)
  · intro skills hne
    match skills, hne with
    | (k0, v0) :: t, _ =>
      show ∃ k ∈ dkeys ((k0, v0) :: t), (dkeys t).foldl max k0 + 1 = k + 1
      rcases foldl_max_mem (dkeys t) k0 with h | h
      · exact ⟨k0, List.mem_cons_self _ _, by rw [h]⟩
      · exact ⟨(dkeys t).foldl max k0, List.mem_cons_of_mem _ h, rfl⟩
  · intro st sd st' sk hld h
    obtain ⟨-, -, hsk, hst'⟩ := create_root_ok h
    refine ⟨by rw [hsk, hld], by rw [hst']⟩
  · intro sd st' sk h
    obtain ⟨-, -, hsk, -⟩ := create_root_ok h
    rw [hsk]
    rfl
  · intro sid st st' r h
    obtain ⟨-, hst'⟩ := delete_skill_ok h
    rw [hst']
    rfl

/-- States of the counterexample run: create "A", create "B", delete 2,
create "C". -/
def stA1 : St := ⟨[(1, ⟨1, "A", none⟩)], 2, [], 1⟩

def stAB : St := ⟨[(1, ⟨1, "A", none⟩), (2, ⟨2, "B", none⟩)], 3, [], 1⟩

def stADel : St := ⟨[(1, ⟨1, "A", none⟩)], 3, [], 1⟩

def stADelC : St := ⟨[(1, ⟨1, "A", none⟩), (3, ⟨3, "C", none⟩)], 4, [], 1⟩

/-- C6 counterexample: in the state reached by create "A", create "B",
delete skill 2 — a state whose skill collection is `{1}` — the next created
skill is assigned ID 3, not the claimed `max existing ID + 1 = 2`. -/
theorem C6_counterexample :
    create_root_skill ⟨"A", none⟩ clearedSt = .ok (stA1, ⟨1, "A", none⟩) ∧
      create_root_skill ⟨"B", none⟩ stA1 = .ok (stAB, ⟨2, "B", none⟩) ∧
      delete_skill 2 stAB = .ok (stADel, ()) ∧
      create_root_skill ⟨"C", none⟩ stADel = .ok (stADelC, ⟨3, "C", none⟩) ∧
      get_next_skill_id stADel.skills = 2 ∧
      (⟨3, "C", none⟩ : Skill).id ≠ get_next_skill_id stADel.skills := by
  decide

/-- The A → B → C state with a fourth root "D" appended. -/
def stABCD : St :=
  ⟨[(1, ⟨1, "A", none⟩), (2, ⟨2, "B", some 1⟩), (3, ⟨3, "C", some 2⟩),
    (4, ⟨4, "D", none⟩)], 5, [], 1⟩

theorem C6_amended_id_allocation_witness :
    get_next_skill_id stABC.skills = 4 ∧
      ∃ (st' : St) (sk : Skill),
        create_root_skill ⟨"D", none⟩ stABC = .ok (st', sk) ∧
          sk.id = get_next_skill_id stABC.skills := by
  have h := C6_amended_id_allocation
  have hc : create_root_skill ⟨"D", none⟩ stABC =
      .ok (stABCD, ⟨4, "D", none⟩) := by decide
  refine ⟨by decide, stABCD, ⟨4, "D", none⟩, hc, ?_⟩
  exact (h.2.2.2.2.1 stABC ⟨"D", none⟩ stABCD ⟨4, "D", none⟩ (by decide) hc).1


/-! ## Claim C8: update (rename/reparent) semantics -/

/-- C8: the update operation fails with a 404 `NotFoundError` when the
target skill does not exist; when no `parent_id` field is present in the
request the skill's parent is unchanged; the literal value `-1` promotes
the skill to root (`parent_id = None`); a concrete resolved parent must
reference an existing skill, failing with a 400 `ValidationError`
otherwise; and (on an acyclic map) it fails with a 409 `ConflictError`
exactly when the cycle checker rejects the proposed assignment. -/
theorem C8_update_semantics (skill_id : Int) (sd : SkillUpdate) (st : St) :
    (dget st.skills skill_id = none →
      update_skill skill_id sd st =
        .error ⟨404, s!"Skill with id {skill_id} not found"⟩) ∧
      (∀ (existing : Skill) (st' : St) (sk : Skill),
        dget st.skills skill_id = some existing →
        sd.parent_id = none →
        update_skill skill_id sd st = .ok (st', sk) →
        sk.parent_id = existing.parent_id ∧
          dget st'.skills skill_id = some sk) ∧
      (∀ (existing : Skill) (st' : St) (sk : Skill),
        dget st.skills skill_id = some existing →
        sd.parentAttr = some (-1) →
        update_skill skill_id sd st = .ok (st', sk) →
        sk.parent_id = none ∧ dget st'.skills skill_id = some sk) ∧
      (∀ (existing : Skill) (np : Int),
        dget st.skills skill_id = some existing →
        resolve_parent sd existing = some np →
        dget st.skills np = none →
        update_skill skill_id sd st =
          .error ⟨400, s!"Parent skill with id {np} not found"⟩) ∧
      (StAcyclic st → ∀ (existing : Skill) (np : Int),
        dget st.skills skill_id = some existing →
        resolve_parent sd existing = some np →
        (dget st.skills np).isSome →
        ((∃ e : CycleErr,
            update_skill skill_id sd st = .error ⟨409, e.message⟩) ↔
          (∃ e : CycleErr, validate_no_cycle skill_id (some np)
            (dset (pmList st.skills) skill_id (some np)) = .error e))) := by
  refine ⟨?_, ?_, ?_, ?_, ?_⟩
  · intro habs
    unfold update_skill
    rw [habs]
  · intro existing st' sk hex habsent h
    obtain ⟨existing2, hex2, happ, -⟩ := update_skill_ok h
    rw [hex] at hex2
    injection hex2 with hex2
    subst hex2
    have hres : resolve_parent sd existing = existing.parent_id := by
      unfold resolve_parent SkillUpdate.parentAttr
      rw [habsent]
      simp
    have hsk := congrArg Prod.snd happ
    have hst := congrArg Prod.fst happ
    simp only [update_skill_apply] at hsk hst
    rw [hres] at hsk hst
    constructor
    · rw [hsk]
    · rw [hst, hsk]
      exact dget_dset_self st.skills skill_id _
  · intro existing st' sk hex hminus h
    obtain ⟨existing2, hex2, happ, -⟩ := update_skill_ok h
    rw [hex] at hex2
    injection hex2 with hex2
    subst hex2
    have hres : resolve_parent sd existing = none := by
      unfold resolve_parent
      rw [if_pos hminus]
    have hsk := congrArg Prod.snd happ
    have hst := congrArg Prod.fst happ
    simp only [update_skill_apply] at hsk hst
    rw [hres] at hsk hst
    constructor
    · rw [hsk]
    · rw [hst, hsk]
      exact dget_dset_self st.skills skill_id _
  · intro existing np hex hres hnone
    unfold update_skill
    rw [hex]
    dsimp only
    rw [hres]
    dsimp only
    rw [if_pos (by simp [hnone])]
  · intro hac existing np hex hres hnpS
    have hnotnone : ¬ (dget st.skills np).isNone := by
      simpa [Option.isNone_iff_eq_none] using Option.isSome_iff_ne_none.mp hnpS
    constructor
    · intro ⟨e, herr⟩
      unfold update_skill at herr
      rw [hex] at herr
      dsimp only at herr
      rw [hres] at herr
      dsimp only at herr
      rw [if_neg hnotnone] at herr
      by_cases hch : some np ≠ existing.parent_id
      · rw [if_pos hch] at herr
        rcases hv : validate_no_cycle skill_id (some np)
            (dset (pmList st.skills) skill_id (some np)) with e2 | u
        · exact ⟨e2, rfl⟩
        · rw [hv] at herr
          exact Except.noConfusion herr
      · rw [if_neg hch] at herr
        exact Except.noConfusion herr
    · intro ⟨e, hverr⟩
      have hch : some np ≠ existing.parent_id := by
        intro heq
        have hf : pmF (pmList st.skills) skill_id = some np := by
          rw [pmF_of_dget hex, ← heq]
        have hpmeq : pmF (dset (pmList st.skills) skill_id (some np)) =
            pmF (pmList st.skills) := by
          rw [pmF_dset, updF_self hf]
        have hns : np ≠ skill_id := by
          intro hnp
          subst hnp
          exact hac np np hf (.refl np)
        have hok : validate_no_cycle skill_id (some np)
            (dset (pmList st.skills) skill_id (some np)) = .ok () := by
          apply (validate_ok_iff _ _ _ hns).mpr
          rw [hpmeq]
          refine ⟨hac skill_id np hf, ?_⟩
          have := acyclic_chain_terminates (pmList st.skills) hac np
          simpa using this
        rw [hok] at hverr
        exact Except.noConfusion hverr
      refine ⟨e, ?_⟩
      unfold update_skill
      rw [hex]
      dsimp only
      rw [hres]
      dsimp only
      rw [if_neg hnotnone, if_pos hch, hverr]

/-- The A → B → C state with "C" renamed to "Zed" and reparented to root
via the sentinel `-1`. -/
def stABZ : St :=
  ⟨[(1, ⟨1, "A", none⟩), (2, ⟨2, "B", some 1⟩), (3, ⟨3, "Zed", none⟩)],
   4, [], 1⟩

theorem C8_update_semantics_witness :
    update_skill 9 ⟨none, none⟩ stABC =
        .error ⟨404, "Skill with id 9 not found"⟩ ∧
      update_skill 3 ⟨some "Zed", some (some (-1))⟩ stABC =
        .ok (stABZ, ⟨3, "Zed", none⟩) ∧
      (⟨3, "Zed", none⟩ : Skill).parent_id = none ∧
      update_skill 3 ⟨none, some (some 7)⟩ stABC =
        .error ⟨400, "Parent skill with id 7 not found"⟩ ∧
      (∃ e : CycleErr,
        update_skill 1 ⟨none, some (some 3)⟩ stABC =
          .error ⟨409, e.message⟩) := by
  have h := C8_update_semantics 9 ⟨none, none⟩ stABC
  have h3 := C8_update_semantics 3 ⟨some "Zed", some (some (-1))⟩ stABC
  have h4 := C8_update_semantics 3 ⟨none, some (some 7)⟩ stABC
  have h5 := C8_update_semantics 1 ⟨none, some (some 3)⟩ stABC
  have hac : StAcyclic stABC := stAcyclic_of_check stABC 3 (by decide)
  have hup : update_skill 3 ⟨some "Zed", some (some (-1))⟩ stABC =
      .ok (stABZ, ⟨3, "Zed", none⟩) := by decide
  refine ⟨h.1 (by decide), hup, ?_, ?_, ?_⟩
  · exact (h3.2.2.1 ⟨3, "C", some 2⟩ stABZ ⟨3, "Zed", none⟩ (by decide)
      (by decide) hup).1
  · exact h4.2.2.2.1 ⟨3, "C", some 2⟩ 7 (by decide) (by decide) (by decide)
  · apply (h5.2.2.2.2 hac ⟨1, "A", none⟩ 3 (by decide) (by decide)
      (by decide)).mpr
    refine ⟨.wouldCycle 1 3, ?_⟩
    apply (validate_wouldCycle_iff 1 3 _ (by decide)).mpr
    exact @ReachUp.step _ 3 2 1 (by decide)
      (@ReachUp.step _ 2 1 1 (by decide) (.refl 1))

/-! ## The aggregation engine (`get_skill_summary`, skills.py lines 587-665) -/

/-- `CounterSummary` as computed and passed to the constructor by
`get_skill_summary`.  Note: the pydantic `CounterSummary` model in
`app/models/skill.py` (lines 41-46) declares no `target` field, so pydantic
silently drops the computed value at construction, although the route
computes it, the spec's data model includes it and the test suite asserts
it; the embedding keeps the computed value. -/
structure CounterSummary where
  name : String
  unit : Option String
  total : ℚ
  target : Option ℚ
  count : Nat
deriving DecidableEq, Repr

/-- `SkillSummary` (recursive through `children`). -/
inductive SkillSummary where
  | mk (id : Int) (name : String) (parent_id : Option Int)
      (counter_totals : List CounterSummary) (total_descendants : Nat)
      (direct_children_count : Nat) (children : List SkillSummary)

def SkillSummary.counter_totals : SkillSummary → List CounterSummary
  | .mk _ _ _ ct _ _ _ => ct

def SkillSummary.total_descendants : SkillSummary → Nat
  | .mk _ _ _ _ td _ _ => td

def SkillSummary.direct_children_count : SkillSummary → Nat
  | .mk _ _ _ _ _ dc _ => dc

/-- The running aggregate per `(name, unit)` key:
`{"total": …, "count": …, "target": …}`. -/
structure AggData where
  total : ℚ
  count : Nat
  target : ℚ
deriving DecidableEq, Repr

/-- The grouping key `(counter.name, counter.unit or "")`: a `None` unit and
an empty-string unit (both falsy in Python) collapse to `""`. -/
def aggKey (c : Counter) : String × String := (c.name, c.unit.getD "")

/-- One step of the aggregation loop (lines 632-640): initialize the key's
entry to zeros if absent, then add `value`, bump `count`, and add `target`
only when it is not `None`. -/
def aggStep (acc : List ((String × String) × AggData)) (c : Counter) :
    List ((String × String) × AggData) :=
  dset acc (aggKey c)
    ⟨((dget acc (aggKey c)).getD ⟨0, 0, 0⟩).total + c.value,
     ((dget acc (aggKey c)).getD ⟨0, 0, 0⟩).count + 1,
     match c.target with
     | some t => ((dget acc (aggKey c)).getD ⟨0, 0, 0⟩).target + t
     | none => ((dget acc (aggKey c)).getD ⟨0, 0, 0⟩).target⟩

/-- The counters belonging to `{skill_id} ∪ descendants(skill_id)`, in
collection order.  (Python iterates the id set and filters the counter dict
per id; the multiset of visited counters is the same and every per-key
aggregate is order-independent.) -/
def relevantCounters (skill_id : Int) (st : St) : List Counter :=
  (st.counters.filter (fun p =>
    p.2.skill_id ∈ insert skill_id
      (get_descendants skill_id (pmList st.skills)))).map Prod.snd

/-- The aggregation dict after the loop. -/
def agg_of (skill_id : Int) (st : St) : List ((String × String) × AggData) :=
  (relevantCounters skill_id st).foldl aggStep []

/-- One entry of lines 643-652: a falsy (empty) unit becomes `None` and a
non-positive target sum becomes `None`. -/
def mkCounterSummary (q : (String × String) × AggData) : CounterSummary :=
  ⟨q.1.1, if q.1.2 = "" then none else some q.1.2, q.2.total,
   if q.2.target > 0 then some q.2.target else none, q.2.count⟩

/-- Lines 643-652: build the `CounterSummary` list. -/
def counter_totals_of (agg : List ((String × String) × AggData)) :
    List CounterSummary :=
  agg.map mkCounterSummary

/-- `[s for s in skills_db.values() if s.parent_id == skill_id]`. -/
def direct_children (skill_id : Int) (st : St) : List Skill :=
  (st.skills.filter (fun p => p.2.parent_id = some skill_id)).map Prod.snd

/-- `get_skill_summary` (lines 587-665).  The Python function recurses into
every direct child with no structural bound (terminating because the maps
are acyclic); the embedding makes the depth explicit as fuel and the claims
characterize every successful result. -/
def get_skill_summary (fuel : Nat) (skill_id : Int) (st : St) :
    Except HTTPErr SkillSummary :=
  match dget st.skills skill_id with
  | none => .error ⟨404, s!"Skill with id {skill_id} not found"⟩
  | some skill =>
    match fuel with
    | 0 => .error ⟨500, "maximum recursion depth exceeded"⟩
    | f + 1 =>
      match (direct_children skill_id st).mapM
          (fun ch => get_skill_summary f ch.id st) with
      | .error e => .error e
      | .ok children =>
        .ok (.mk skill.id skill.name skill.parent_id
          (counter_totals_of (agg_of skill_id st))
          (get_descendants skill_id (pmList st.skills)).card
          (direct_children skill_id st).length
          children)

theorem get_skill_summary_ok {fuel : Nat} {skill_id : Int} {st : St}
    {summ : SkillSummary}
    (h : get_skill_summary fuel skill_id st = .ok summ) :
    summ.counter_totals = counter_totals_of (agg_of skill_id st) ∧
      summ.total_descendants =
        (get_descendants skill_id (pmList st.skills)).card ∧
      summ.direct_children_count = (direct_children skill_id st).length := by
  unfold get_skill_summary at h
  rcases he : dget st.skills skill_id with _ | skill
  · rw [he] at h
    exact Except.noConfusion h
  · rw [he] at h
    dsimp only at h
    rcases fuel with _ | f
    · exact Except.noConfusion h
    · dsimp only at h
      rcases hm : (direct_children skill_id st).mapM
          (fun ch => get_skill_summary f ch.id st) with e | children
      · rw [hm] at h
        exact Except.noConfusion h
      · rw [hm] at h
        injection h with h
        rw [← h]
        exact ⟨rfl, rfl, rfl⟩

/-! ## Characterization of the aggregation fold -/

/-- The counters of `L` in the `(nm, unit-or-empty)` group `k`. -/
def aggFilter (k : String × String) (L : List Counter) : List Counter :=
  L.filter (fun c => aggKey c = k)

/-- Total value of group `k`. -/
def totFor (k : String × String) (L : List Counter) : ℚ :=
  ((aggFilter k L).map Counter.value).sum

/-- Number of counters in group `k`. -/
def cntFor (k : String × String) (L : List Counter) : Nat :=
  (aggFilter k L).length

/-- Target sum of group `k` (non-`None` members only; `None` contributes
zero). -/
def tgtFor (k : String × String) (L : List Counter) : ℚ :=
  ((aggFilter k L).map (fun c => c.target.getD 0)).sum

theorem dget_aggFold (k : String × String) :
    ∀ (L : List Counter) (acc : List ((String × String) × AggData)),
      dget (L.foldl aggStep acc) k =
        if (dget acc k).isSome || L.any (fun c => decide (aggKey c = k)) then
          some ⟨((dget acc k).getD ⟨0, 0, 0⟩).total + totFor k L,
                ((dget acc k).getD ⟨0, 0, 0⟩).count + cntFor k L,
                ((dget acc k).getD ⟨0, 0, 0⟩).target + tgtFor k L⟩
        else none := by
  intro L
  induction L with
  | nil =>
    intro acc
    rcases h : dget acc k with _ | d
    · simpa using h
    · obtain ⟨dt, dc, dg⟩ := d
      simpa [totFor, cntFor, tgtFor, aggFilter] using h
  | cons c cs ih =>
    intro acc
    rw [List.foldl_cons, ih (aggStep acc c)]
    by_cases hk : aggKey c = k
    · have hstep : dget (aggStep acc c) k =
          some ⟨((dget acc k).getD ⟨0, 0, 0⟩).total + c.value,
                ((dget acc k).getD ⟨0, 0, 0⟩).count + 1,
                ((dget acc k).getD ⟨0, 0, 0⟩).target + c.target.getD 0⟩ := by
        unfold aggStep
        rw [hk, dget_dset_self]
        rcases c.target with _ | t
        · simp
        · simp
      have hfil : aggFilter k (c :: cs) = c :: aggFilter k cs := by
        unfold aggFilter
        rw [List.filter_cons, if_pos (by simpa using hk)]
      have htot : totFor k (c :: cs) = c.value + totFor k cs := by
        unfold totFor
        rw [hfil, List.map_cons, List.sum_cons]
      have hcnt : cntFor k (c :: cs) = 1 + cntFor k cs := by
        unfold cntFor
        rw [hfil, List.length_cons]
        omega
      have htgt : tgtFor k (c :: cs) = c.target.getD 0 + tgtFor k cs := by
        unfold tgtFor
        rw [hfil, List.map_cons, List.sum_cons]
      rw [hstep, htot, hcnt, htgt]
      have hcond : ((dget acc k).isSome ||
          (c :: cs).any (fun c => decide (aggKey c = k))) = true := by
        simp [hk]
      rw [hcond]
      simp only [Option.isSome_some, Bool.true_or, Option.getD_some, if_true]
      congr 1
      congr 1
      · ring
      · omega
      · ring
    · have hstep : dget (aggStep acc c) k = dget acc k := by
        unfold aggStep
        exact dget_dset_ne acc (aggKey c) k _ (fun hh => hk hh.symm)
      have hfil : aggFilter k (c :: cs) = aggFilter k cs := by
        unfold aggFilter
        rw [List.filter_cons, if_neg (by simpa using hk)]
      have hany : ((c :: cs).any (fun c => decide (aggKey c = k))) =
          (cs.any (fun c => decide (aggKey c = k))) := by
        simp [hk]
      rw [hstep, hany]
      unfold totFor cntFor tgtFor
      rw [hfil]

/-- The `(name, unit-or-empty)` key recovered from a summary entry. -/
def entryKey (e : CounterSummary) : String × String := (e.name, e.unit.getD "")

theorem entryKey_mk (q : (String × String) × AggData) :
    entryKey (mkCounterSummary q) = q.1 := by
  unfold entryKey mkCounterSummary
  by_cases h : q.1.2 = ""
  · simp only [if_pos h, Option.getD_none]
    rw [← h]
  · simp only [if_neg h, Option.getD_some]

theorem nodup_dkeys_aggFold :
    ∀ (L : List Counter) (acc : List ((String × String) × AggData)),
      (dkeys acc).Nodup → (dkeys (L.foldl aggStep acc)).Nodup := by
  intro L
  induction L with
  | nil => intro acc h; exact h
  | cons c cs ih =>
    intro acc h
    rw [List.foldl_cons]
    exact ih (aggStep acc c) (nodup_dkeys_dset acc (aggKey c) _ h)

theorem dget_agg_of (skill_id : Int) (st : St) (k : String × String) :
    dget (agg_of skill_id st) k =
      if (relevantCounters skill_id st).any
          (fun c => decide (aggKey c = k)) then
        some ⟨totFor k (relevantCounters skill_id st),
              cntFor k (relevantCounters skill_id st),
              tgtFor k (relevantCounters skill_id st)⟩
      else none := by
  unfold agg_of
  rw [dget_aggFold k (relevantCounters skill_id st) []]
  have hbase : dget ([] : List ((String × String) × AggData)) k = none := rfl
  rw [hbase]
  simp only [Option.isSome_none, Bool.false_or, Option.getD_none]
  by_cases h : (relevantCounters skill_id st).any (fun c => decide (aggKey c = k))
  · rw [if_pos h, if_pos h]
    congr 1
    congr 1 <;> simp
  · rw [if_neg h, if_neg h]

/-- Every entry of the computed `counter_totals` carries exactly the
per-group total value, counter count and target sum of the counters of
`{X} ∪ descendants(X)` with its `(name, unit-or-empty)` key, the keys are
distinct, and a key is present exactly when some such counter carries
it. -/
theorem counter_totals_char (skill_id : Int) (st : St) :
    ((counter_totals_of (agg_of skill_id st)).map entryKey).Nodup ∧
      (∀ e ∈ counter_totals_of (agg_of skill_id st),
        e.total = totFor (entryKey e) (relevantCounters skill_id st) ∧
        e.count = cntFor (entryKey e) (relevantCounters skill_id st) ∧
        e.target = (if tgtFor (entryKey e) (relevantCounters skill_id st) > 0
          then some (tgtFor (entryKey e) (relevantCounters skill_id st))
          else none)) ∧
      (∀ k : String × String,
        (∃ e ∈ counter_totals_of (agg_of skill_id st), entryKey e = k) ↔
        (∃ c ∈ relevantCounters skill_id st, aggKey c = k)) := by
  have hnodup : (dkeys (agg_of skill_id st)).Nodup :=
    nodup_dkeys_aggFold (relevantCounters skill_id st) [] (by simp [dkeys])
  have hmem : ∀ q ∈ agg_of skill_id st,
      q.2 = ⟨totFor q.1 (relevantCounters skill_id st),
             cntFor q.1 (relevantCounters skill_id st),
             tgtFor q.1 (relevantCounters skill_id st)⟩ := by
    intro q hq
    have hg : dget (agg_of skill_id st) q.1 = some q.2 := by
      rcases q with ⟨qk, qv⟩
      exact mem_dget hnodup hq
    rw [dget_agg_of] at hg
    by_cases h : (relevantCounters skill_id st).any
        (fun c => decide (aggKey c = q.1))
    · rw [if_pos h] at hg
      injection hg with hg
      exact hg.symm
    · rw [if_neg h] at hg
      exact Option.noConfusion hg
  refine ⟨?_, ?_, ?_⟩
  · unfold counter_totals_of
    rw [List.map_map]
    have : (entryKey ∘ mkCounterSummary) = Prod.fst := by
      funext q
      exact entryKey_mk q
    rw [this]
    exact hnodup
  · intro e he
    unfold counter_totals_of at he
    obtain ⟨q, hq, rfl⟩ := List.mem_map.mp he
    rw [entryKey_mk]
    have hq2 := hmem q hq
    refine ⟨?_, ?_, ?_⟩
    · show q.2.total = _
      rw [hq2]
    · show q.2.count = _
      rw [hq2]
    · show (if q.2.target > 0 then some q.2.target else none) = _
      rw [hq2]
  · intro k
    constructor
    · intro ⟨e, he, hek⟩
      unfold counter_totals_of at he
      obtain ⟨q, hq, rfl⟩ := List.mem_map.mp he
      rw [entryKey_mk] at hek
      subst hek
      have hg : dget (agg_of skill_id st) q.1 = some q.2 := by
        rcases q with ⟨qk, qv⟩
        exact mem_dget hnodup hq
      rw [dget_agg_of] at hg
      by_cases h : (relevantCounters skill_id st).any
          (fun c => decide (aggKey c = q.1))
      · obtain ⟨c, hc, hck⟩ := List.any_eq_true.mp h
        exact ⟨c, hc, of_decide_eq_true hck⟩
      · rw [if_neg h] at hg
        exact Option.noConfusion hg
    · intro ⟨c, hc, hck⟩
      have h : (relevantCounters skill_id st).any
          (fun c => decide (aggKey c = k)) = true :=
        List.any_eq_true.mpr ⟨c, hc, decide_eq_true hck⟩
      have hg : dget (agg_of skill_id st) k = some
          ⟨totFor k (relevantCounters skill_id st),
           cntFor k (relevantCounters skill_id st),
           tgtFor k (relevantCounters skill_id st)⟩ := by
        rw [dget_agg_of, if_pos h]
      have hkmem : (k, (⟨totFor k (relevantCounters skill_id st),
          cntFor k (relevantCounters skill_id st),
          tgtFor k (relevantCounters skill_id st)⟩ : AggData)) ∈
          agg_of skill_id st := dget_mem hg
      refine ⟨mkCounterSummary (k, ⟨totFor k (relevantCounters skill_id st),
        cntFor k (relevantCounters skill_id st),
        tgtFor k (relevantCounters skill_id st)⟩), ?_, ?_⟩
      · exact List.mem_map_of_mem mkCounterSummary hkmem
      · exact entryKey_mk _

/-- Membership in the counters-of-the-subtree list matches the spec-level
criterion: the counter is stored and its skill is X or a strict descendant
of X. -/
theorem mem_relevantCounters (skill_id : Int) (st : St)
    (hnd : (dkeys st.skills).Nodup) (c : Counter) :
    c ∈ relevantCounters skill_id st ↔
      (∃ cid, (cid, c) ∈ st.counters) ∧
        (c.skill_id = skill_id ∨
          IsDescendant (pmList st.skills) skill_id c.skill_id) := by
  have hndm : (dkeys (pmList st.skills)).Nodup := by
    rw [dkeys_pmList]; exact hnd
  unfold relevantCounters
  rw [List.mem_map]
  constructor
  · intro ⟨p, hp, hpc⟩
    obtain ⟨hpm, hcond⟩ := List.mem_filter.mp hp
    subst hpc
    refine ⟨⟨p.1, by rcases p with ⟨a, b⟩; exact hpm⟩, ?_⟩
    have hins := of_decide_eq_true hcond
    rcases Finset.mem_insert.mp hins with heq | hmem
    · exact Or.inl heq
    · exact Or.inr (get_descendants_fuel_sound (pmList st.skills) hndm _
        skill_id p.2.skill_id hmem)
  · intro ⟨⟨cid, hcid⟩, hcond⟩
    refine ⟨(cid, c), List.mem_filter.mpr ⟨hcid, ?_⟩, rfl⟩
    apply decide_eq_true
    rcases hcond with heq | hdd
    · exact heq ▸ Finset.mem_insert_self _ _
    · by_cases hks : c.skill_id = skill_id
      · exact hks ▸ Finset.mem_insert_self _ _
      · exact Finset.mem_insert_of_mem
          ((get_descendants_eq (pmList st.skills) hndm skill_id c.skill_id
            hks).mpr hdd)

/-- Is a result a success (used to evaluate concrete runs without forcing
the rational components of the payload)? -/
def resultOk {ε α : Type} : Except ε α → Bool
  | .ok _ => true
  | .error _ => false

/-- The spec's concrete scenario state: Programming (1) → Python (2) →
Django (3) with an Hours/h counter on each (5, 10, 3.5). -/
def stScen : St :=
  ⟨[(1, ⟨1, "Programming", none⟩), (2, ⟨2, "Python", some 1⟩),
    (3, ⟨3, "Django", some 2⟩)], 4,
   [(1, ⟨1, 1, "Hours", some "h", 5, none⟩),
    (2, ⟨2, 2, "Hours", some "h", 10, none⟩),
    (3, ⟨3, 3, "Hours", some "h", mkRat 7 2, none⟩)], 4⟩

/-- The group-key/count/unit skeleton of the scenario summary (everything
but the rational components, which the kernel cannot evaluate). -/
theorem scen_skeleton :
    (counter_totals_of (agg_of 1 stScen)).map
      (fun e => (e.name, e.unit, e.count, e.target.isSome)) =
      [("Hours", some "h", 3, false)] := by decide

/-- The Hours/h group of the scenario collects exactly the three counters. -/
theorem scen_filter :
    aggFilter ("Hours", "h") (relevantCounters 1 stScen) =
      [⟨1, 1, "Hours", some "h", 5, none⟩, ⟨2, 2, "Hours", some "h", 10, none⟩,
       ⟨3, 3, "Hours", some "h", mkRat 7 2, none⟩] := by decide

/-- C3: on any state with distinct skill ids, a successful
`get_skill_summary` carries one `counter_totals` entry per distinct
`(name, unit or "")` key among the counters attached to the skill or a
descendant of it (a `None` unit and an empty-string unit coincide), and
each entry totals and counts exactly those counters; concretely, on the
three-node Hours scenario `summarize(1)` yields `total_descendants = 2`,
`direct_children_count = 1` and the single group
`{name := "Hours", unit := "h", total := 18.5, count := 3,
target := null}`. -/
theorem C3_aggregation :
    (∀ (st : St) (skill_id : Int) (fuel : Nat) (summ : SkillSummary),
      (dkeys st.skills).Nodup →
      get_skill_summary fuel skill_id st = .ok summ →
      (summ.counter_totals.map entryKey).Nodup ∧
      (∀ e ∈ summ.counter_totals,
        e.total = totFor (entryKey e) (relevantCounters skill_id st) ∧
        e.count = cntFor (entryKey e) (relevantCounters skill_id st)) ∧
      (∀ k : String × String,
        (∃ e ∈ summ.counter_totals, entryKey e = k) ↔
        (∃ c, (∃ cid, (cid, c) ∈ st.counters) ∧
          (c.skill_id = skill_id ∨
            IsDescendant (pmList st.skills) skill_id c.skill_id) ∧
          aggKey c = k))) ∧
    mkRat 7 2 = (3.5 : ℚ) ∧
    (∃ summ, get_skill_summary 3 1 stScen = .ok summ ∧
      summ.total_descendants = 2 ∧ summ.direct_children_count = 1 ∧
      ∃ e, summ.counter_totals = [e] ∧ e.name = "Hours" ∧
        e.unit = some "h" ∧ e.total = (18.5 : ℚ) ∧ e.count = 3 ∧
        e.target = none) := by
  refine ⟨?_, by norm_num [Rat.mkRat_eq_div], ?_⟩
  · intro st skill_id fuel summ hnd hok
    obtain ⟨hct, -, -⟩ := get_skill_summary_ok hok
    obtain ⟨hnodup, hvals, hkeys⟩ := counter_totals_char skill_id st
    rw [hct]
    refine ⟨hnodup, fun e he => ⟨(hvals e he).1, (hvals e he).2.1⟩, ?_⟩
    intro k
    rw [hkeys k]
    constructor
    · intro ⟨c, hc, hck⟩
      obtain ⟨hstore, hcond⟩ := (mem_relevantCounters skill_id st hnd c).mp hc
      exact ⟨c, hstore, hcond, hck⟩
    · intro ⟨c, hstore, hcond, hck⟩
      exact ⟨c, (mem_relevantCounters skill_id st hnd c).mpr
        ⟨hstore, hcond⟩, hck⟩
  · have hokb : resultOk (get_skill_summary 3 1 stScen) = true := by decide
    rcases hres : get_skill_summary 3 1 stScen with er | summ
    · rw [hres] at hokb
      exact Bool.noConfusion hokb
    · obtain ⟨hct, htd, hdc⟩ := get_skill_summary_ok hres
      refine ⟨summ, rfl, by rw [htd]; decide, by rw [hdc]; decide, ?_⟩
      have hskel := scen_skeleton
      rcases hl : counter_totals_of (agg_of 1 stScen) with _ | ⟨e, rest⟩
      · rw [hl] at hskel
        exact absurd hskel (by simp)
      · rcases rest with _ | ⟨e2, rest2⟩
        · rw [hl] at hskel
          simp only [List.map_cons, List.map_nil, List.cons.injEq,
            and_true, Prod.mk.injEq] at hskel
          obtain ⟨hname, hunit, hcnt, htgtb⟩ := hskel
          have hmem : e ∈ counter_totals_of (agg_of 1 stScen) := by
            rw [hl]
            exact List.mem_singleton_self e
          have hkey : entryKey e = ("Hours", "h") := by
            unfold entryKey
            rw [hname, hunit]
            rfl
          obtain ⟨hnodup, hvals, -⟩ := counter_totals_char 1 stScen
          have htote := (hvals e hmem).1
          have htgte := (hvals e hmem).2.2
          rw [hkey] at htote htgte
          have htot : totFor ("Hours", "h") (relevantCounters 1 stScen) =
              (18.5 : ℚ) := by
            unfold totFor
            rw [scen_filter]
            show (5 : ℚ) + (10 + (mkRat 7 2 + 0)) = 18.5
            norm_num [Rat.mkRat_eq_div]
          have htgt : tgtFor ("Hours", "h") (relevantCounters 1 stScen) =
              (0 : ℚ) := by
            unfold tgtFor
            rw [scen_filter]
            show (0 : ℚ) + (0 + (0 + 0)) = 0
            norm_num
          refine ⟨e, hct.trans hl, hname, hunit, ?_, hcnt, ?_⟩
          · rw [htote, htot]
          · rw [htgte, htgt]
            norm_num
        · rw [hl] at hskel
          exact absurd hskel (by simp)

/-- C3, instantiated: the scenario state satisfies the hypotheses of the
general aggregation characterization. -/
theorem C3_aggregation_witness :
    (dkeys stScen.skills).Nodup ∧
    ∃ summ, get_skill_summary 3 1 stScen = .ok summ ∧
      (summ.counter_totals.map entryKey).Nodup := by
  obtain ⟨hgen, -, summ, hok, -⟩ := C3_aggregation
  exact ⟨by decide, summ, hok, (hgen stScen 1 3 summ (by decide) hok).1⟩

/-- A list of nonnegative rationals has positive sum exactly when some
member is positive. -/
theorem list_sum_pos_iff (l : List ℚ) (h : ∀ x ∈ l, 0 ≤ x) :
    0 < l.sum ↔ ∃ x ∈ l, 0 < x := by
  induction l with
  | nil => simp
  | cons a t ih =>
    have hht : ∀ x ∈ t, 0 ≤ x := fun x hx => h x (List.mem_cons_of_mem a hx)
    have ha : 0 ≤ a := h a (List.mem_cons_self a t)
    have hts : 0 ≤ t.sum := List.sum_nonneg hht
    simp only [List.sum_cons, List.mem_cons]
    constructor
    · intro hpos
      by_cases hap : 0 < a
      · exact ⟨a, Or.inl rfl, hap⟩
      · have haz : a = 0 := le_antisymm (not_lt.mp hap) ha
        have hpt : 0 < t.sum := by
          rw [haz, zero_add] at hpos
          exact hpos
        obtain ⟨x, hx, hxp⟩ := (ih hht).mp hpt
        exact ⟨x, Or.inr hx, hxp⟩
    · intro ⟨x, hx, hxp⟩
      rcases hx with rfl | hx
      · exact add_pos_of_pos_of_nonneg hxp hts
      · exact add_pos_of_nonneg_of_pos ha ((ih hht).mpr ⟨x, hx, hxp⟩)

/-- A state with one skill and one counter whose target is `0.0`: a
non-`None` target the aggregation nevertheless reports as `None`, because
the route emits a sum only when it is strictly positive. -/
def stTgt0 : St :=
  ⟨[(1, ⟨1, "Pushups", none⟩)], 2, [(1, ⟨1, 1, "Reps", none, 0, some 0⟩)], 2⟩

/-- C4 counterexample: in `stTgt0` the only group has a member whose
target is `some 0` (non-null), yet the emitted group target is `None` —
the code gates on `target_sum > 0`, not on the existence of a non-null
member, so the claimed "null iff no member has a non-null target" fails
(as does "target equals the sum over non-null members", which here is
`0`, not null). -/
theorem C4_counterexample :
    ∃ summ, get_skill_summary 1 1 stTgt0 = .ok summ ∧
      ∃ e, summ.counter_totals = [e] ∧
        (∃ c ∈ relevantCounters 1 stTgt0, aggKey c = entryKey e ∧
          c.target = some 0) ∧
        e.target = none := by
  have hokb : resultOk (get_skill_summary 1 1 stTgt0) = true := by decide
  rcases hres : get_skill_summary 1 1 stTgt0 with er | summ
  · rw [hres] at hokb
    exact Bool.noConfusion hokb
  · obtain ⟨hct, -, -⟩ := get_skill_summary_ok hres
    have hskel : (counter_totals_of (agg_of 1 stTgt0)).map
        (fun e => (e.name, e.unit)) = [("Reps", none)] := by decide
    rcases hl : counter_totals_of (agg_of 1 stTgt0) with _ | ⟨e, rest⟩
    · rw [hl] at hskel
      exact absurd hskel (by simp)
    · rcases rest with _ | ⟨e2, rest2⟩
      · rw [hl] at hskel
        simp only [List.map_cons, List.map_nil, List.cons.injEq, and_true,
          Prod.mk.injEq] at hskel
        obtain ⟨hname, hunit⟩ := hskel
        have hkey : entryKey e = ("Reps", "") := by
          unfold entryKey
          rw [hname, hunit]
          rfl
        have hmem : e ∈ counter_totals_of (agg_of 1 stTgt0) := by
          rw [hl]
          exact List.mem_singleton_self e
        obtain ⟨-, hvals, -⟩ := counter_totals_char 1 stTgt0
        have htgte := (hvals e hmem).2.2
        rw [hkey] at htgte
        have hfil : aggFilter ("Reps", "") (relevantCounters 1 stTgt0) =
            [⟨1, 1, "Reps", none, 0, some 0⟩] := by decide
        have htgt : tgtFor ("Reps", "") (relevantCounters 1 stTgt0) = 0 := by
          unfold tgtFor
          rw [hfil]
          show (0 : ℚ) + 0 = 0
          norm_num
        have hrel : relevantCounters 1 stTgt0 =
            [⟨1, 1, "Reps", none, 0, some 0⟩] := by decide
        refine ⟨summ, rfl, e, hct.trans hl,
          ⟨⟨1, 1, "Reps", none, 0, some 0⟩, ?_, ?_, rfl⟩, ?_⟩
        · rw [hrel]
          exact List.mem_singleton_self _
        · rw [hkey]
          rfl
        · rw [htgte, htgt]
          norm_num
      · rw [hl] at hskel
        exact absurd hskel (by simp)

/-- C4 amended: each emitted group target is `some` of the non-null-member
target sum when that sum is strictly positive and `None` otherwise; under
valid data (no negative targets stored), the target is `None` exactly when
no member of the group has a strictly positive target — a member with
target `0.0` is treated like a `None` one. -/
theorem C4_amended_target (st : St) (skill_id : Int) (fuel : Nat)
    (summ : SkillSummary)
    (hok : get_skill_summary fuel skill_id st = .ok summ)
    (hvalid : ∀ p ∈ st.counters, ∀ t : ℚ, p.2.target = some t → 0 ≤ t) :
    ∀ e ∈ summ.counter_totals,
      e.target = (if tgtFor (entryKey e) (relevantCounters skill_id st) > 0
        then some (tgtFor (entryKey e) (relevantCounters skill_id st))
        else none) ∧
      (e.target = none ↔
        ¬ ∃ c ∈ relevantCounters skill_id st, aggKey c = entryKey e ∧
          ∃ t : ℚ, c.target = some t ∧ 0 < t) := by
  intro e he
  obtain ⟨hct, -, -⟩ := get_skill_summary_ok hok
  rw [hct] at he
  obtain ⟨-, hvals, -⟩ := counter_totals_char skill_id st
  have htgte := (hvals e he).2.2
  have hmemnn : ∀ x ∈ (aggFilter (entryKey e)
      (relevantCounters skill_id st)).map (fun c => c.target.getD 0),
      (0 : ℚ) ≤ x := by
    intro x hx
    obtain ⟨c, hc, rfl⟩ := List.mem_map.mp hx
    have hcrel : c ∈ relevantCounters skill_id st := List.mem_of_mem_filter hc
    obtain ⟨p, hp, hpc⟩ := List.mem_map.mp hcrel
    rcases hta : c.target with _ | t
    · simp [hta]
    · have := hvalid p (List.mem_of_mem_filter hp) t (by rw [hpc]; exact hta)
      simpa [hta]
  have hiff : tgtFor (entryKey e) (relevantCounters skill_id st) > 0 ↔
      ∃ c ∈ relevantCounters skill_id st, aggKey c = entryKey e ∧
        ∃ t : ℚ, c.target = some t ∧ 0 < t := by
    unfold tgtFor
    rw [gt_iff_lt, list_sum_pos_iff _ hmemnn]
    constructor
    · intro ⟨x, hx, hxp⟩
      obtain ⟨c, hc, rfl⟩ := List.mem_map.mp hx
      obtain ⟨hcrel, hckey⟩ := List.mem_filter.mp hc
      rcases hta : c.target with _ | t
      · rw [hta] at hxp
        exact absurd hxp (by simp)
      · refine ⟨c, hcrel, of_decide_eq_true hckey, t, hta, ?_⟩
        rw [hta] at hxp
        simpa using hxp
    · intro ⟨c, hcrel, hckey, t, hta, htp⟩
      refine ⟨c.target.getD 0, List.mem_map_of_mem _
        (List.mem_filter.mpr ⟨hcrel, decide_eq_true hckey⟩), ?_⟩
      rw [hta]
      simpa using htp
  refine ⟨htgte, ?_⟩
  rw [htgte]
  by_cases hp : tgtFor (entryKey e) (relevantCounters skill_id st) > 0
  · rw [if_pos hp]
    constructor
    · intro h
      exact Option.noConfusion h
    · intro h
      exact absurd (hiff.mp hp) h
  · rw [if_neg hp]
    constructor
    · intro _ hex
      exact hp (hiff.mpr hex)
    · intro _
      rfl

/-- C4 amended, instantiated on the Hours scenario: every stored target is
nonnegative (vacuously — they are all `None`), no member has a positive
target, and the amended characterization yields a `None` group target. -/
theorem C4_amended_target_witness :
    ∃ summ, get_skill_summary 3 1 stScen = .ok summ ∧
      ∀ e ∈ summ.counter_totals, e.target = none := by
  have hokb : resultOk (get_skill_summary 3 1 stScen) = true := by decide
  rcases hres : get_skill_summary 3 1 stScen with er | summ
  · rw [hres] at hokb
    exact Bool.noConfusion hokb
  · refine ⟨summ, rfl, ?_⟩
    intro e he
    have hvalid : ∀ p ∈ stScen.counters, ∀ t : ℚ, p.2.target = some t →
        (0 : ℚ) ≤ t := by
      intro p hp t ht
      simp only [stScen, List.mem_cons, List.not_mem_nil, or_false] at hp
      rcases hp with rfl | rfl | rfl <;> exact Option.noConfusion ht
    have h := C4_amended_target stScen 1 3 summ hres hvalid e he
    refine h.2.mpr ?_
    intro ⟨c, hc, _, t, hta, _⟩
    rw [show relevantCounters 1 stScen =
      [⟨1, 1, "Hours", some "h", 5, none⟩, ⟨2, 2, "Hours", some "h", 10, none⟩,
       ⟨3, 3, "Hours", some "h", mkRat 7 2, none⟩] from by decide] at hc
    simp only [List.mem_cons, List.not_mem_nil, or_false] at hc
    rcases hc with rfl | rfl | rfl <;> exact Option.noConfusion hta

/-! ## Import/export codec (`skills.py` lines 167-303)

`app/routers/skills.py` imports the pydantic models `SkillImportNode`,
`SkillExportNode` and `CounterExportData` from `app/models/skill.py`, but
no file under `src/` defines them; their shapes are taken from the
specification (§4.5). -/

/-- Modelled from the spec: `CounterExportData` — the per-node counter
payload `{name, unit, value, target}` of the export document. -/
structure CounterExportData where
  name : String
  unit : Option String
  value : ℚ
  target : Option ℚ
deriving DecidableEq, Repr

/-- Modelled from the spec: `SkillImportNode` — an import node
`{name, counters, children}`, carrying no ids. -/
inductive SkillImportNode where
  | mk (name : String) (counters : List CounterExportData)
      (children : List SkillImportNode)

/-- Modelled from the spec: `SkillExportNode` — an export node
`{id, name, counters, children}`. -/
inductive SkillExportNode where
  | mk (id : Int) (name : String) (counters : List CounterExportData)
      (children : List SkillExportNode)

def SkillImportNode.name : SkillImportNode → String
  | .mk nm _ _ => nm

def SkillImportNode.counters : SkillImportNode → List CounterExportData
  | .mk _ cs _ => cs

def SkillImportNode.children : SkillImportNode → List SkillImportNode
  | .mk _ _ ch => ch

def SkillExportNode.id : SkillExportNode → Int
  | .mk i _ _ _ => i

def SkillExportNode.name : SkillExportNode → String
  | .mk _ nm _ _ => nm

def SkillExportNode.counters : SkillExportNode → List CounterExportData
  | .mk _ _ cs _ => cs

def SkillExportNode.children : SkillExportNode → List SkillExportNode
  | .mk _ _ _ ch => ch

mutual
/-- Stripping the assigned ids from an export node gives an import node. -/
def SkillExportNode.strip : SkillExportNode → SkillImportNode
  | .mk _ nm cs ch => .mk nm cs (stripList ch)

/-- `strip` over a forest. -/
def stripList : List SkillExportNode → List SkillImportNode
  | [] => []
  | e :: t => e.strip :: stripList t
end

mutual
def sizeE : SkillExportNode → Nat
  | .mk _ _ _ ch => 1 + sizeEList ch

def sizeEList : List SkillExportNode → Nat
  | [] => 0
  | e :: t => 1 + sizeE e + sizeEList t
end

mutual
/-- All skill ids assigned in an export subtree, root first. -/
def exIds : SkillExportNode → List Int
  | .mk i _ _ ch => i :: exIdsList ch

def exIdsList : List SkillExportNode → List Int
  | [] => []
  | e :: t => exIds e ++ exIdsList t
end

mutual
def sizeI : SkillImportNode → Nat
  | .mk _ _ ch => 1 + sizeIList ch

def sizeIList : List SkillImportNode → Nat
  | [] => 0
  | n :: t => 1 + sizeI n + sizeIList t
end

/-- The counter-creation loop of `_import_tree_node` (lines 274-293): each
listed counter is stored under a fresh counter id with the node's skill
id, and echoed back as `CounterExportData`. -/
def importCounters (skill_id : Int) (cs : List CounterExportData)
    (st : St) : St × List CounterExportData :=
  match cs with
  | [] => (st, [])
  | cd :: t =>
    match importCounters skill_id t
      { st with
        counters := dset st.counters st.next_counter_id
          ⟨st.next_counter_id, skill_id, cd.name, cd.unit, cd.value,
            cd.target⟩,
        next_counter_id := st.next_counter_id + 1 } with
    | (st2, rest) => (st2, ⟨cd.name, cd.unit, cd.value, cd.target⟩ :: rest)

mutual
/-- `_import_tree_node` (lines 254-303): root-name check for top-level
nodes only, then create the skill under a fresh id, store its counters,
and recurse into the children with the new skill as parent. -/
def _import_tree_node (node : SkillImportNode) (parent_id : Option Int)
    (st : St) : Except HTTPErr (St × SkillExportNode) :=
  match node with
  | .mk nm cs ch =>
    if parent_id = none ∧ rootNameTaken st.skills nm then
      .error ⟨409, s!"Root skill with name {squote}{nm}{squote} already exists"⟩
    else
      match importCounters st.next_skill_id cs
        { st with
          skills := dset st.skills st.next_skill_id
            ⟨st.next_skill_id, nm, parent_id⟩,
          next_skill_id := st.next_skill_id + 1 } with
      | (st2, cexp) =>
        match importChildren ch st.next_skill_id st2 with
        | .error e => .error e
        | .ok (st3, chex) => .ok (st3, .mk st.next_skill_id nm cexp chex)

/-- The child-import loop `[_import_tree_node(child, skill_id) for child
in node.children]` (line 296). -/
def importChildren (nodes : List SkillImportNode) (parent_id : Int)
    (st : St) : Except HTTPErr (St × List SkillExportNode) :=
  match nodes with
  | [] => .ok (st, [])
  | n :: t =>
    match _import_tree_node n (some parent_id) st with
    | .error e => .error e
    | .ok (st1, ex) =>
      match importChildren t parent_id st1 with
      | .error e => .error e
      | .ok (st2, exs) => .ok (st2, ex :: exs)
end

/-- The per-tree loop of the import endpoints (lines 243-245). -/
def importForest (trees : List SkillImportNode) (st : St) :
    Except HTTPErr (St × List SkillExportNode) :=
  match trees with
  | [] => .ok (st, [])
  | tr :: t =>
    match _import_tree_node tr none st with
    | .error e => .error e
    | .ok (st1, ex) =>
      match importForest t st1 with
      | .error e => .error e
      | .ok (st2, exs) => .ok (st2, ex :: exs)

/-- `update_skill_tree` (PUT `/skills/import`, lines 217-251): clear all
skills and counters, reset both allocators to `1`, then import every tree
sequentially. -/
def update_skill_tree (trees : List SkillImportNode) (st : St) :
    Except HTTPErr (St × List SkillExportNode) :=
  importForest trees ⟨[], 1, [], 1⟩

/-- `export_node` (lines 180-208), the unbounded recursion made explicit
as fuel: a node exports its stored name, its own counters in collection
order, and recursively the skills whose `parent_id` is this node, in
collection order. -/
def export_node (fuel : Nat) (skill_id : Int) (st : St) :
    Option SkillExportNode :=
  match fuel with
  | 0 => none
  | f + 1 =>
    match dget st.skills skill_id with
    | none => none
    | some skill =>
      match ((st.skills.filter
          (fun p => p.2.parent_id = some skill_id)).map Prod.fst).mapM
          (fun cid => export_node f cid st) with
      | none => none
      | some children =>
        some (.mk skill.id skill.name
          ((st.counters.filter (fun p => p.2.skill_id = skill_id)).map
            (fun p => ⟨p.2.name, p.2.unit, p.2.value, p.2.target⟩))
          children)

/-- `export_skill_tree` (lines 167-214): export every root tree, in
collection order. -/
def export_skill_tree (fuel : Nat) (st : St) :
    Option (List SkillExportNode) :=
  ((st.skills.filter (fun p => p.2.parent_id = none)).map Prod.fst).mapM
    (fun rid => export_node fuel rid st)

/-- Freshness invariant of the id allocators: every stored id is below its
allocator, and every parent or skill reference is below the skill
allocator. -/
def StInv (st : St) : Prop :=
  (∀ p ∈ st.skills, p.1 < st.next_skill_id ∧
    ∀ y : Int, p.2.parent_id = some y → y < st.next_skill_id) ∧
  (∀ p ∈ st.counters, p.1 < st.next_counter_id ∧
    p.2.skill_id < st.next_skill_id)

mutual
/-- State `s` represents export node `ex`: the node's skill is stored
under its id, the children scan returns exactly its children's ids in
order, the counter scan returns exactly its counters, and recursively so
below. -/
def ReprOK (s : St) : SkillExportNode → Prop
  | .mk i nm cs ch =>
    (∃ pid, dget s.skills i = some ⟨i, nm, pid⟩) ∧
    (s.skills.filter (fun p => p.2.parent_id = some i)).map Prod.fst =
      ch.map SkillExportNode.id ∧
    (s.counters.filter (fun p => p.2.skill_id = i)).map
      (fun p => (⟨p.2.name, p.2.unit, p.2.value, p.2.target⟩ :
        CounterExportData)) = cs ∧
    ReprOKList s ch

/-- `ReprOK` over a forest. -/
def ReprOKList (s : St) : List SkillExportNode → Prop
  | [] => True
  | e :: t => ReprOK s e ∧ ReprOKList s t
end

theorem dget_append_left {κ α : Type} [DecidableEq κ]
    {a : List (κ × α)} (b : List (κ × α)) {k : κ} {v : α}
    (h : dget a k = some v) : dget (a ++ b) k = some v := by
  induction a with
  | nil => exact Option.noConfusion h
  | cons p t ih =>
    obtain ⟨k0, v0⟩ := p
    by_cases hk : k0 = k
    · simpa [dget, hk] using h
    · rw [List.cons_append]
      simp only [dget, if_neg hk] at h ⊢
      exact ih h

theorem dget_append_right {κ α : Type} [DecidableEq κ]
    {a : List (κ × α)} (b : List (κ × α)) {k : κ}
    (h : dget a k = none) : dget (a ++ b) k = dget b k := by
  induction a with
  | nil => rfl
  | cons p t ih =>
    obtain ⟨k0, v0⟩ := p
    by_cases hk : k0 = k
    · simp [dget, hk] at h
    · rw [List.cons_append]
      simp only [dget, if_neg hk] at h ⊢
      exact ih h

theorem rootNameTaken_append (a b : List (Int × Skill)) (nm : String) :
    rootNameTaken (a ++ b) nm =
      (rootNameTaken a nm || rootNameTaken b nm) := by
  unfold rootNameTaken
  exact List.any_append

theorem rootNameTaken_iff (m : List (Int × Skill)) (nm : String) :
    rootNameTaken m nm = true ↔
      ∃ p ∈ m.filter (fun p => p.2.parent_id = none),
        str_lower p.2.name = str_lower nm := by
  unfold rootNameTaken
  rw [List.any_eq_true]
  constructor
  · intro ⟨p, hp, hdec⟩
    obtain ⟨h1, h2⟩ := of_decide_eq_true hdec
    exact ⟨p, List.mem_filter.mpr ⟨hp, decide_eq_true h1⟩, h2⟩
  · intro ⟨p, hp, h2⟩
    obtain ⟨hm, h1⟩ := List.mem_filter.mp hp
    exact ⟨p, hm, decide_eq_true ⟨of_decide_eq_true h1, h2⟩⟩

/-- One-step unfolding of `export_node` at positive fuel. -/
theorem export_node_succ (f : Nat) (skill_id : Int) (s : St) :
    export_node (f + 1) skill_id s =
      match dget s.skills skill_id with
      | none => none
      | some skill =>
        match ((s.skills.filter
            (fun p => p.2.parent_id = some skill_id)).map Prod.fst).mapM
            (fun cid => export_node f cid s) with
        | none => none
        | some children =>
          some (.mk skill.id skill.name
            ((s.counters.filter (fun p => p.2.skill_id = skill_id)).map
              (fun p => ⟨p.2.name, p.2.unit, p.2.value, p.2.target⟩))
            children) := rfl

/-- What the counter-import loop does: the skill map and skill allocator
are untouched, the exports echo the input, and the new counters carry
fresh increasing ids and the given skill id. -/
theorem importCounters_spec (skill_id : Int) (cs : List CounterExportData) :
    ∀ (st st2 : St) (rest : List CounterExportData),
    importCounters skill_id cs st = (st2, rest) →
    (∀ p ∈ st.counters, p.1 < st.next_counter_id) →
    rest = cs ∧
    st2.skills = st.skills ∧
    st2.next_skill_id = st.next_skill_id ∧
    st.next_counter_id ≤ st2.next_counter_id ∧
    ∃ Δc, st2.counters = st.counters ++ Δc ∧
      (∀ p ∈ Δc, st.next_counter_id ≤ p.1 ∧ p.1 < st2.next_counter_id ∧
        p.2.skill_id = skill_id) ∧
      Δc.map (fun p => (⟨p.2.name, p.2.unit, p.2.value, p.2.target⟩ :
        CounterExportData)) = cs := by
  induction cs with
  | nil =>
    intro st st2 rest h hb
    obtain ⟨h1, h2⟩ := Prod.mk.injEq .. ▸ h
    subst h1 h2
    exact ⟨rfl, rfl, rfl, le_refl _, [], by simp, by simp, rfl⟩
  | cons cd t ih =>
    intro st st2 rest h hb
    obtain ⟨cn, cu, cv, ct⟩ := cd
    rw [show importCounters skill_id (⟨cn, cu, cv, ct⟩ :: t) st =
      (match importCounters skill_id t
        { st with
          counters := dset st.counters st.next_counter_id
            ⟨st.next_counter_id, skill_id, cn, cu, cv, ct⟩,
          next_counter_id := st.next_counter_id + 1 } with
      | (st3, rest3) => (st3, ⟨cn, cu, cv, ct⟩ :: rest3)) from rfl] at h
    rcases hrec : importCounters skill_id t
        { st with
          counters := dset st.counters st.next_counter_id
            ⟨st.next_counter_id, skill_id, cn, cu, cv, ct⟩,
          next_counter_id := st.next_counter_id + 1 } with ⟨st3, rest3⟩
    rw [hrec] at h
    dsimp only at h
    obtain ⟨h1, h2⟩ := Prod.mk.injEq .. ▸ h
    subst h1
    have hfresh : st.next_counter_id ∉ dkeys st.counters := by
      intro hmem
      obtain ⟨p, hp, hpk⟩ := List.mem_map.mp hmem
      exact absurd (hpk ▸ hb p hp) (lt_irrefl _)
    have hset := dset_eq_append st.counters st.next_counter_id
      ⟨st.next_counter_id, skill_id, cn, cu, cv, ct⟩ hfresh
    have hb2 : ∀ p ∈ ({ st with
        counters := dset st.counters st.next_counter_id
          ⟨st.next_counter_id, skill_id, cn, cu, cv, ct⟩,
        next_counter_id := st.next_counter_id + 1 } : St).counters,
        p.1 < st.next_counter_id + 1 := by
      intro p hp
      simp only [hset] at hp
      rcases List.mem_append.mp hp with hp | hp
      · exact lt_trans (hb p hp) (by omega)
      · rcases List.mem_singleton.mp hp with rfl
        exact by omega
    obtain ⟨hr, hsk, hns, hnc, Δc, hcounters, hbound, hmap⟩ :=
      ih _ st3 rest3 hrec hb2
    have hproj : ({ st with
        counters := dset st.counters st.next_counter_id
          ⟨st.next_counter_id, skill_id, cn, cu, cv, ct⟩,
        next_counter_id := st.next_counter_id + 1 } : St).next_counter_id =
        st.next_counter_id + 1 := rfl
    rw [hproj] at hnc
    refine ⟨by rw [← h2, hr], hsk, hns, by omega,
      (st.next_counter_id, ⟨st.next_counter_id, skill_id, cn, cu, cv, ct⟩) ::
        Δc, ?_, ?_, ?_⟩
    · rw [hcounters]
      simp only [hset]
      simp
    · intro p hp
      rcases List.mem_cons.mp hp with rfl | hp
      · exact ⟨le_refl _, by omega, rfl⟩
      · obtain ⟨hb1, hb2, hb3⟩ := hbound p hp
        rw [hproj] at hb1
        exact ⟨by omega, hb2, hb3⟩
    · simp only [List.map_cons, hmap]

/-- Representation survives appending skills and counters that neither
reference nor collide with the subtree's ids. -/
theorem reprOK_extend_main : ∀ N : Nat,
    (∀ ex : SkillExportNode, sizeE ex ≤ N →
      ∀ (s s2 : St) (Δ : List (Int × Skill)) (Δc : List (Int × Counter)),
      s2.skills = s.skills ++ Δ → s2.counters = s.counters ++ Δc →
      ReprOK s ex →
      (∀ p ∈ Δ, ∀ i ∈ exIds ex, ¬ p.2.parent_id = some i) →
      (∀ p ∈ Δc, ∀ i ∈ exIds ex, ¬ p.2.skill_id = i) →
      ReprOK s2 ex) ∧
    (∀ exs : List SkillExportNode, sizeEList exs ≤ N →
      ∀ (s s2 : St) (Δ : List (Int × Skill)) (Δc : List (Int × Counter)),
      s2.skills = s.skills ++ Δ → s2.counters = s.counters ++ Δc →
      ReprOKList s exs →
      (∀ p ∈ Δ, ∀ i ∈ exIdsList exs, ¬ p.2.parent_id = some i) →
      (∀ p ∈ Δc, ∀ i ∈ exIdsList exs, ¬ p.2.skill_id = i) →
      ReprOKList s2 exs) := by
  intro N
  induction N using Nat.strong_induction_on with
  | _ N ih =>
    constructor
    · intro ex hsize s s2 Δ Δc hsk hco hrep hΔ hΔc
      obtain ⟨i, nm, cs, ch⟩ := ex
      simp only [ReprOK] at hrep ⊢
      obtain ⟨⟨pid, hdget⟩, hch, hcs, hrest⟩ := hrep
      have hiMem : i ∈ exIds (SkillExportNode.mk i nm cs ch) := by
        simp [exIds]
      refine ⟨⟨pid, ?_⟩, ?_, ?_, ?_⟩
      · rw [hsk]
        exact dget_append_left Δ hdget
      · rw [hsk, List.filter_append, List.map_append]
        have hnil : Δ.filter (fun p => p.2.parent_id = some i) = [] :=
          List.filter_eq_nil.mpr (fun p hp => by
            simpa using hΔ p hp i hiMem)
        rw [hnil, hch]
        simp
      · rw [hco, List.filter_append, List.map_append]
        have hnil : Δc.filter (fun p => p.2.skill_id = i) = [] :=
          List.filter_eq_nil.mpr (fun p hp => by
            simpa using hΔc p hp i hiMem)
        rw [hnil, hcs]
        simp
      · have hsz : sizeE (SkillExportNode.mk i nm cs ch) =
            1 + sizeEList ch := by
          simp [sizeE]
        exact (ih (sizeEList ch) (by omega)).2 ch (le_refl _) s s2 Δ Δc hsk
          hco hrest
          (fun p hp j hj => hΔ p hp j
            (by simp only [exIds, List.mem_cons]; exact Or.inr hj))
          (fun p hp j hj => hΔc p hp j
            (by simp only [exIds, List.mem_cons]; exact Or.inr hj))
    · intro exs hsize s s2 Δ Δc hsk hco hrep hΔ hΔc
      rcases exs with _ | ⟨e, t⟩
      · simp [ReprOKList]
      · simp only [ReprOKList] at hrep ⊢
        obtain ⟨hre, hrt⟩ := hrep
        have hsz : sizeEList (e :: t) = 1 + sizeE e + sizeEList t := by
          simp [sizeEList]
        constructor
        · exact (ih (sizeE e) (by omega)).1 e (le_refl _) s s2 Δ Δc hsk hco
            hre
            (fun p hp j hj => hΔ p hp j
              (by simp only [exIdsList, List.mem_append]; exact Or.inl hj))
            (fun p hp j hj => hΔc p hp j
              (by simp only [exIdsList, List.mem_append]; exact Or.inl hj))
        · exact (ih (sizeEList t) (by omega)).2 t (le_refl _) s s2 Δ Δc hsk
            hco hrt
            (fun p hp j hj => hΔ p hp j
              (by simp only [exIdsList, List.mem_append]; exact Or.inr hj))
            (fun p hp j hj => hΔc p hp j
              (by simp only [exIdsList, List.mem_append]; exact Or.inr hj))

/-- A represented export node is reproduced verbatim by `export_node` at
any sufficient fuel. -/
theorem export_repr_main : ∀ N : Nat,
    (∀ ex : SkillExportNode, sizeE ex ≤ N → ∀ (s : St) (fuel : Nat),
      ReprOK s ex → sizeE ex ≤ fuel →
      export_node fuel ex.id s = some ex) ∧
    (∀ exs : List SkillExportNode, sizeEList exs ≤ N →
      ∀ (s : St) (fuel : Nat),
      ReprOKList s exs → sizeEList exs ≤ fuel →
      (exs.map SkillExportNode.id).mapM
        (fun cid => export_node fuel cid s) = some exs) := by
  intro N
  induction N using Nat.strong_induction_on with
  | _ N ih =>
    constructor
    · intro ex hsize s fuel hrep hfuel
      obtain ⟨i, nm, cs, ch⟩ := ex
      simp only [ReprOK] at hrep
      obtain ⟨⟨pid, hdget⟩, hch, hcs, hrest⟩ := hrep
      have hsz : sizeE (SkillExportNode.mk i nm cs ch) =
          1 + sizeEList ch := by
        simp [sizeE]
      rcases fuel with _ | f
      · omega
      · show export_node (f + 1) i s = some (SkillExportNode.mk i nm cs ch)
        rw [export_node_succ, hdget]
        dsimp only
        rw [hch]
        have hmapM := (ih (sizeEList ch) (by omega)).2 ch (le_refl _) s f
          hrest (by omega)
        rw [hmapM]
        dsimp only
        rw [hcs]
    · intro exs hsize s fuel hrep hfuel
      rcases exs with _ | ⟨e, t⟩
      · rw [List.map_nil]
        rfl
      · simp only [ReprOKList] at hrep
        obtain ⟨hre, hrt⟩ := hrep
        have hsz : sizeEList (e :: t) = 1 + sizeE e + sizeEList t := by
          simp [sizeEList]
        have h1 := (ih (sizeE e) (by omega)).1 e (le_refl _) s fuel hre
          (by omega)
        have h2 := (ih (sizeEList t) (by omega)).2 t (le_refl _) s fuel hrt
          (by omega)
        rw [List.map_cons, List.mapM_cons, h1, h2]
        rfl

theorem filter_of_all {α : Type} (p : α → Bool) (l : List α)
    (h : ∀ a ∈ l, p a = true) : l.filter p = l := by
  induction l with
  | nil => rfl
  | cons a t ih =>
    rw [List.filter_cons_of_pos (h a (List.mem_cons_self a t)),
      ih (fun a ha => h a (List.mem_cons_of_mem _ ha))]

/-- Everything `_import_tree_node` guarantees on success (and that it
succeeds whenever a top-level root-name conflict is excluded): fresh
increasing ids, pure appending, the export echo of the input, and
representation of the returned node in the final state. -/
def ImportNodeSpec (n : SkillImportNode) : Prop :=
  ∀ (pid : Option Int) (st : St),
    StInv st →
    (∀ y : Int, pid = some y → y < st.next_skill_id) →
    (pid = none → rootNameTaken st.skills n.name = false) →
    ∃ st2 ex, _import_tree_node n pid st = .ok (st2, ex) ∧
      StInv st2 ∧
      st.next_skill_id < st2.next_skill_id ∧
      st.next_counter_id ≤ st2.next_counter_id ∧
      ex.strip = n ∧
      ex.id = st.next_skill_id ∧
      (∀ i ∈ exIds ex, st.next_skill_id ≤ i ∧ i < st2.next_skill_id) ∧
      ∃ Δ Δc,
        st2.skills = st.skills ++ Δ ∧
        st2.counters = st.counters ++ Δc ∧
        (∀ p ∈ Δ, (st.next_skill_id ≤ p.1 ∧ p.1 < st2.next_skill_id) ∧
          (p.2.parent_id = pid ∨ ∃ y : Int, p.2.parent_id = some y ∧
            st.next_skill_id ≤ y ∧ y < st2.next_skill_id)) ∧
        Δ.filter (fun p => p.2.parent_id = none) =
          (match pid with
           | none => [(st.next_skill_id, ⟨st.next_skill_id, n.name, none⟩)]
           | some _ => []) ∧
        (∀ q : Int, q < st.next_skill_id →
          (Δ.filter (fun p => p.2.parent_id = some q)).map Prod.fst =
            if pid = some q then [st.next_skill_id] else []) ∧
        (∀ p ∈ Δc, st.next_counter_id ≤ p.1 ∧ p.1 < st2.next_counter_id ∧
          st.next_skill_id ≤ p.2.skill_id ∧
          p.2.skill_id < st2.next_skill_id) ∧
        ReprOK st2 ex

/-- The same guarantees for the child-import loop (which never checks root
names: every node it creates has a parent). -/
def ImportChildrenSpec (l : List SkillImportNode) : Prop :=
  ∀ (pid : Int) (st : St),
    StInv st →
    pid < st.next_skill_id →
    ∃ st2 exs, importChildren l pid st = .ok (st2, exs) ∧
      StInv st2 ∧
      st.next_skill_id ≤ st2.next_skill_id ∧
      st.next_counter_id ≤ st2.next_counter_id ∧
      stripList exs = l ∧
      (∀ i ∈ exIdsList exs, st.next_skill_id ≤ i ∧ i < st2.next_skill_id) ∧
      ∃ Δ Δc,
        st2.skills = st.skills ++ Δ ∧
        st2.counters = st.counters ++ Δc ∧
        (∀ p ∈ Δ, (st.next_skill_id ≤ p.1 ∧ p.1 < st2.next_skill_id) ∧
          ∃ y : Int, p.2.parent_id = some y ∧
            (y = pid ∨ (st.next_skill_id ≤ y ∧ y < st2.next_skill_id))) ∧
        Δ.filter (fun p => p.2.parent_id = none) = [] ∧
        (∀ q : Int, q < st.next_skill_id →
          (Δ.filter (fun p => p.2.parent_id = some q)).map Prod.fst =
            if pid = q then exs.map SkillExportNode.id else []) ∧
        (∀ p ∈ Δc, st.next_counter_id ≤ p.1 ∧ p.1 < st2.next_counter_id ∧
          st.next_skill_id ≤ p.2.skill_id ∧
          p.2.skill_id < st2.next_skill_id) ∧
        ReprOKList st2 exs

theorem import_spec_main : ∀ N : Nat,
    (∀ n : SkillImportNode, sizeI n ≤ N → ImportNodeSpec n) ∧
    (∀ l : List SkillImportNode, sizeIList l ≤ N → ImportChildrenSpec l) := by
  intro N
  induction N using Nat.strong_induction_on with
  | _ N ih =>
    constructor
    · intro n hsize
      obtain ⟨nm, cs, ch⟩ := n
      intro pid st hinv hpid hroot
      have hsz : sizeI (SkillImportNode.mk nm cs ch) = 1 + sizeIList ch := by
        simp [sizeI]
      have hcond : ¬ (pid = none ∧ rootNameTaken st.skills nm = true) := by
        intro ⟨h1, h2⟩
        have hr : rootNameTaken st.skills nm = false := hroot h1
        rw [hr] at h2
        exact Bool.noConfusion h2
      have hfresh : st.next_skill_id ∉ dkeys st.skills := by
        intro hmem
        obtain ⟨p, hp, hpk⟩ := List.mem_map.mp hmem
        exact absurd (hpk ▸ (hinv.1 p hp).1) (lt_irrefl _)
      have hsetA : dset st.skills st.next_skill_id
          ⟨st.next_skill_id, nm, pid⟩ =
          st.skills ++ [(st.next_skill_id, ⟨st.next_skill_id, nm, pid⟩)] :=
        dset_eq_append _ _ _ hfresh
      rcases hic : importCounters st.next_skill_id cs
          { st with
            skills := dset st.skills st.next_skill_id
              ⟨st.next_skill_id, nm, pid⟩,
            next_skill_id := st.next_skill_id + 1 } with ⟨st2, cexp⟩
      obtain ⟨hrest, hsk2, hns2, hnc2, Δcs, hco2, hbcs, hmapcs⟩ :=
        importCounters_spec st.next_skill_id cs _ st2 cexp hic
          (fun p hp => (hinv.2 p hp).1)
      have hsk2A : st2.skills =
          st.skills ++ [(st.next_skill_id, ⟨st.next_skill_id, nm, pid⟩)] := by
        rw [hsk2]
        exact hsetA
      have hns2A : st2.next_skill_id = st.next_skill_id + 1 := hns2
      have hco2A : st2.counters = st.counters ++ Δcs := hco2
      have hnc2A : st.next_counter_id ≤ st2.next_counter_id := hnc2
      have hinv2 : StInv st2 := by
        constructor
        · intro p hp
          rw [hsk2A] at hp
          rcases List.mem_append.mp hp with hp | hp
          · obtain ⟨hb1, hb2⟩ := hinv.1 p hp
            exact ⟨by omega, fun y hy => by
              have := hb2 y hy
              omega⟩
          · rcases List.mem_singleton.mp hp with rfl
            refine ⟨by omega, fun y hy => ?_⟩
            have := hpid y hy
            omega
        · intro p hp
          rw [hco2A] at hp
          rcases List.mem_append.mp hp with hp | hp
          · obtain ⟨hb1, hb2⟩ := hinv.2 p hp
            exact ⟨by omega, by omega⟩
          · obtain ⟨hb1, hb2, hb3⟩ := hbcs p hp
            exact ⟨hb2, by rw [hb3, hns2A]; omega⟩
      obtain ⟨st3, chex, hchrun, hinv3, hns3, hnc3, hstrip3, hids3, Δch,
          Δchc, hsk3, hco3, hΔch, hΔnone, hΔq, hΔchc, hrepl⟩ :=
        (ih (sizeIList ch) (by omega)).2 ch (le_refl _) st.next_skill_id st2
          hinv2 (by omega)
      have hrun : _import_tree_node (SkillImportNode.mk nm cs ch) pid st =
          .ok (st3, SkillExportNode.mk st.next_skill_id nm cexp chex) := by
        simp only [_import_tree_node]
        rw [if_neg hcond, hic]
        dsimp only
        rw [hchrun]
      have hsk3A : st3.skills = st.skills ++
          ((st.next_skill_id, ⟨st.next_skill_id, nm, pid⟩) :: Δch) := by
        rw [hsk3, hsk2A]
        simp
      have hco3A : st3.counters = st.counters ++ (Δcs ++ Δchc) := by
        rw [hco3, hco2A]
        simp
      refine ⟨st3, SkillExportNode.mk st.next_skill_id nm cexp chex, hrun,
        hinv3, by omega, by omega, ?_, rfl, ?_,
        (st.next_skill_id, ⟨st.next_skill_id, nm, pid⟩) :: Δch,
        Δcs ++ Δchc, hsk3A, hco3A, ?_, ?_, ?_, ?_, ?_⟩
      · simp only [SkillExportNode.strip]
        rw [hrest, hstrip3]
      · intro i hi
        simp only [exIds, List.mem_cons] at hi
        rcases hi with rfl | hi
        · exact ⟨le_refl _, by omega⟩
        · obtain ⟨hb1, hb2⟩ := hids3 i hi
          exact ⟨by omega, hb2⟩
      · intro p hp
        rcases List.mem_cons.mp hp with rfl | hp
        · exact ⟨⟨le_refl _, by omega⟩, Or.inl rfl⟩
        · obtain ⟨⟨hb1, hb2⟩, y, hy, hcase⟩ := hΔch p hp
          refine ⟨⟨by omega, hb2⟩, Or.inr ⟨y, hy, ?_⟩⟩
          rcases hcase with rfl | ⟨hc1, hc2⟩
          · exact ⟨le_refl _, by omega⟩
          · exact ⟨by omega, hc2⟩
      · rcases pid with _ | y
        · rw [List.filter_cons_of_pos (by simp), hΔnone]
          rfl
        · rw [List.filter_cons_of_neg (by simp), hΔnone]
      · intro q hq
        have hΔq2 := hΔq q (by omega)
        have hne : ¬ (st.next_skill_id = q) := by omega
        rw [if_neg hne] at hΔq2
        by_cases hpq : pid = some q
        · rw [if_pos hpq, List.filter_cons_of_pos (by simp [hpq]),
            List.map_cons, hΔq2]
        · rw [if_neg hpq, List.filter_cons_of_neg (by simp [hpq]), hΔq2]
      · intro p hp
        rcases List.mem_append.mp hp with hp | hp
        · obtain ⟨hb1, hb2, hb3⟩ := hbcs p hp
          refine ⟨hb1, by omega, ?_, ?_⟩
          · rw [hb3]
          · rw [hb3]
            omega
        · obtain ⟨hb1, hb2, hb3, hb4⟩ := hΔchc p hp
          exact ⟨by omega, hb2, by omega, hb4⟩
      · simp only [ReprOK]
        refine ⟨⟨pid, ?_⟩, ?_, ?_, hrepl⟩
        · rw [hsk3A,
            dget_append_right _ ((dget_eq_none _ _).mpr hfresh)]
          simp [dget]
        · rw [hsk3A, List.filter_append, List.map_append]
          have h0 : st.skills.filter
              (fun p => p.2.parent_id = some st.next_skill_id) = [] := by
            apply List.filter_eq_nil.mpr
            intro p hp
            simp only [decide_eq_true_eq]
            intro hpar
            have := (hinv.1 p hp).2 _ hpar
            omega
          have h1 : ((st.next_skill_id,
              (⟨st.next_skill_id, nm, pid⟩ : Skill)) :: Δch).filter
              (fun p => p.2.parent_id = some st.next_skill_id) =
              Δch.filter
                (fun p => p.2.parent_id = some st.next_skill_id) := by
            apply List.filter_cons_of_neg
            simp only [decide_eq_true_eq]
            intro hpar
            have := hpid _ hpar
            omega
          have h2 := hΔq st.next_skill_id (by omega)
          rw [if_pos rfl] at h2
          rw [h0, h1, h2]
          simp
        · rw [hco3A, List.filter_append, List.filter_append,
            List.map_append, List.map_append]
          have h0 : st.counters.filter
              (fun p => p.2.skill_id = st.next_skill_id) = [] := by
            apply List.filter_eq_nil.mpr
            intro p hp
            simp only [decide_eq_true_eq]
            intro hpar
            have := (hinv.2 p hp).2
            omega
          have h1 : Δcs.filter
              (fun p => p.2.skill_id = st.next_skill_id) = Δcs := by
            apply filter_of_all
            intro p hp
            simp only [decide_eq_true_eq]
            exact (hbcs p hp).2.2
          have h2 : Δchc.filter
              (fun p => p.2.skill_id = st.next_skill_id) = [] := by
            apply List.filter_eq_nil.mpr
            intro p hp
            simp only [decide_eq_true_eq]
            obtain ⟨hb1, hb2, hb3, hb4⟩ := hΔchc p hp
            omega
          rw [h0, h1, h2, hmapcs, hrest]
          simp
    · intro l hsize
      rcases l with _ | ⟨n, t⟩
      · intro pid st hinv hppid
        refine ⟨st, [], rfl, hinv, le_refl _, le_refl _, rfl, ?_, [], [],
          (List.append_nil _).symm, (List.append_nil _).symm, ?_, rfl, ?_,
          ?_, ?_⟩
        · intro i hi
          simp [exIdsList] at hi
        · intro p hp
          simp at hp
        · intro q hq
          by_cases h : pid = q <;> simp [h]
        · intro p hp
          simp at hp
        · simp [ReprOKList]
      · intro pid st hinv hppid
        have hsz : sizeIList (n :: t) = 1 + sizeI n + sizeIList t := by
          simp [sizeIList]
        obtain ⟨st1, ex, hrun1, hinv1, hlt1, hle1c, hstrip1, hid1, hids1,
            Δ1, Δc1, hsk1, hco1, hΔ1, hnone1, hq1, hΔc1, hrep1⟩ :=
          (ih (sizeI n) (by omega)).1 n (le_refl _) (some pid) st hinv
            (fun y hy => by injection hy with hy; exact hy ▸ hppid)
            (fun h => Option.noConfusion h)
        obtain ⟨st2, exs, hrun2, hinv2, hle2, hle2c, hstrip2, hids2, Δ2,
            Δc2, hsk2, hco2, hΔ2, hnone2, hq2, hΔc2, hrep2⟩ :=
          (ih (sizeIList t) (by omega)).2 t (le_refl _) pid st1 hinv1
            (by omega)
        have hrun : importChildren (n :: t) pid st = .ok (st2, ex :: exs) := by
          simp only [importChildren]
          rw [hrun1]
          dsimp only
          rw [hrun2]
        have hnone1A : Δ1.filter (fun p => p.2.parent_id = none) = [] :=
          hnone1
        refine ⟨st2, ex :: exs, hrun, hinv2, by omega, by omega, ?_, ?_,
          Δ1 ++ Δ2, Δc1 ++ Δc2, ?_, ?_, ?_, ?_, ?_, ?_, ?_⟩
        · simp only [stripList]
          rw [hstrip1, hstrip2]
        · intro i hi
          simp only [exIdsList, List.mem_append] at hi
          rcases hi with hi | hi
          · obtain ⟨hb1, hb2⟩ := hids1 i hi
            exact ⟨hb1, by omega⟩
          · obtain ⟨hb1, hb2⟩ := hids2 i hi
            exact ⟨by omega, hb2⟩
        · rw [hsk2, hsk1, List.append_assoc]
        · rw [hco2, hco1, List.append_assoc]
        · intro p hp
          rcases List.mem_append.mp hp with hp | hp
          · obtain ⟨⟨hb1, hb2⟩, hcase⟩ := hΔ1 p hp
            refine ⟨⟨hb1, by omega⟩, ?_⟩
            rcases hcase with hpar | ⟨y, hy, hy1, hy2⟩
            · exact ⟨pid, hpar, Or.inl rfl⟩
            · exact ⟨y, hy, Or.inr ⟨hy1, by omega⟩⟩
          · obtain ⟨⟨hb1, hb2⟩, y, hy, hcase⟩ := hΔ2 p hp
            refine ⟨⟨by omega, hb2⟩, y, hy, ?_⟩
            rcases hcase with rfl | ⟨hc1, hc2⟩
            · exact Or.inl rfl
            · exact Or.inr ⟨by omega, hc2⟩
        · rw [List.filter_append, hnone1A, hnone2]
          rfl
        · intro q hq
          rw [List.filter_append, List.map_append, hq1 q hq,
            hq2 q (by omega)]
          by_cases hpq : pid = q
          · have hsq : (some pid : Option Int) = some q := by rw [hpq]
            rw [if_pos hsq, if_pos hpq, if_pos hpq, List.map_cons, hid1]
            rfl
          · have hsq : ¬ ((some pid : Option Int) = some q) := by
              intro h
              injection h with h
              exact hpq h
            rw [if_neg hsq, if_neg hpq, if_neg hpq]
            rfl
        · intro p hp
          rcases List.mem_append.mp hp with hp | hp
          · obtain ⟨hb1, hb2, hb3, hb4⟩ := hΔc1 p hp
            exact ⟨hb1, by omega, hb3, by omega⟩
          · obtain ⟨hb1, hb2, hb3, hb4⟩ := hΔc2 p hp
            exact ⟨by omega, hb2, by omega, hb4⟩
        · simp only [ReprOKList]
          refine ⟨?_, hrep2⟩
          apply (reprOK_extend_main (sizeE ex)).1 ex (le_refl _) st1 st2 Δ2
            Δc2 hsk2 hco2 hrep1
          · intro p hp i hi
            obtain ⟨hbi1, hbi2⟩ := hids1 i (by
              obtain ⟨i0, n0, c0, ch0⟩ := ex
              simpa [exIds] using hi)
            obtain ⟨-, y, hy, hcase⟩ := hΔ2 p hp
            rw [hy]
            intro hcontra
            injection hcontra with hcontra
            rcases hcase with rfl | ⟨hc1, hc2⟩
            · omega
            · omega
          · intro p hp i hi
            obtain ⟨hbi1, hbi2⟩ := hids1 i (by
              obtain ⟨i0, n0, c0, ch0⟩ := ex
              simpa [exIds] using hi)
            obtain ⟨-, -, hb3, hb4⟩ := hΔc2 p hp
            omega

theorem strip_name (ex : SkillExportNode) : ex.strip.name = ex.name := by
  obtain ⟨i, nm, cs, ch⟩ := ex
  simp only [SkillExportNode.strip, SkillImportNode.name,
    SkillExportNode.name]

theorem stripList_map (l : List SkillExportNode) :
    stripList l = l.map SkillExportNode.strip := by
  induction l with
  | nil => rfl
  | cons e t ih =>
    simp only [stripList, List.map_cons, ih]

/-- The forest-import loop: with pairwise-distinct lowered root names (and
no clash with the existing roots) it succeeds, echoes the input modulo
fresh ids, and its output forest is represented in the final state. -/
theorem importForest_spec (trees : List SkillImportNode) : ∀ st : St,
    StInv st →
    (∀ n ∈ trees, rootNameTaken st.skills n.name = false) →
    trees.Pairwise (fun a b => str_lower a.name ≠ str_lower b.name) →
    ∃ st2 exs, importForest trees st = .ok (st2, exs) ∧
      StInv st2 ∧
      st.next_skill_id ≤ st2.next_skill_id ∧
      stripList exs = trees ∧
      (∀ i ∈ exIdsList exs, st.next_skill_id ≤ i ∧ i < st2.next_skill_id) ∧
      ∃ Δ Δc,
        st2.skills = st.skills ++ Δ ∧
        st2.counters = st.counters ++ Δc ∧
        (∀ p ∈ Δ, (st.next_skill_id ≤ p.1 ∧ p.1 < st2.next_skill_id) ∧
          (p.2.parent_id = none ∨ ∃ y : Int, p.2.parent_id = some y ∧
            st.next_skill_id ≤ y ∧ y < st2.next_skill_id)) ∧
        Δ.filter (fun p => p.2.parent_id = none) =
          exs.map (fun e => (e.id, ⟨e.id, e.name, none⟩)) ∧
        (∀ p ∈ Δc, st.next_skill_id ≤ p.2.skill_id ∧
          p.2.skill_id < st2.next_skill_id) ∧
        ReprOKList st2 exs := by
  induction trees with
  | nil =>
    intro st hinv hroot hpw
    refine ⟨st, [], rfl, hinv, le_refl _, rfl, ?_, [], [],
      (List.append_nil _).symm, (List.append_nil _).symm, ?_, rfl, ?_, ?_⟩
    · intro i hi
      simp [exIdsList] at hi
    · intro p hp
      simp at hp
    · intro p hp
      simp at hp
    · simp [ReprOKList]
  | cons tr t ihf =>
    intro st hinv hroot hpw
    obtain ⟨st1, ex, hrun1, hinv1, hlt1, hle1c, hstrip1, hid1, hids1, Δ1,
        Δc1, hsk1, hco1, hΔ1, hnone1, hq1, hΔc1, hrep1⟩ :=
      (import_spec_main (sizeI tr)).1 tr (le_refl _) none st hinv
        (fun y hy => Option.noConfusion hy)
        (fun h => hroot tr (List.mem_cons_self tr t))
    have hnone1A : Δ1.filter (fun p => p.2.parent_id = none) =
        [(st.next_skill_id, ⟨st.next_skill_id, tr.name, none⟩)] := hnone1
    have hpw2 := List.pairwise_cons.mp hpw
    have hroot1 : ∀ n ∈ t, rootNameTaken st1.skills n.name = false := by
      intro n hn
      rw [hsk1, rootNameTaken_append, hroot n (List.mem_cons_of_mem _ hn)]
      have h2 : rootNameTaken Δ1 n.name = false := by
        rw [Bool.eq_false_iff]
        intro htrue
        obtain ⟨p, hpf, hlow⟩ := (rootNameTaken_iff Δ1 n.name).mp htrue
        rw [hnone1A] at hpf
        rcases List.mem_singleton.mp hpf with rfl
        exact hpw2.1 n hn hlow
      rw [h2]
      rfl
    obtain ⟨st2, exs, hrun2, hinv2, hle2, hstrip2, hids2, Δ2, Δc2, hsk2,
        hco2, hΔ2, hnone2, hΔc2, hrep2⟩ := ihf st1 hinv1 hroot1 hpw2.2
    have hrun : importForest (tr :: t) st = .ok (st2, ex :: exs) := by
      simp only [importForest]
      rw [hrun1]
      dsimp only
      rw [hrun2]
    have hexn : ex.name = tr.name := by
      rw [← hstrip1, strip_name]
    refine ⟨st2, ex :: exs, hrun, hinv2, by omega, ?_, ?_,
      Δ1 ++ Δ2, Δc1 ++ Δc2, ?_, ?_, ?_, ?_, ?_, ?_⟩
    · simp only [stripList]
      rw [hstrip1, hstrip2]
    · intro i hi
      simp only [exIdsList, List.mem_append] at hi
      rcases hi with hi | hi
      · obtain ⟨hb1, hb2⟩ := hids1 i hi
        exact ⟨hb1, by omega⟩
      · obtain ⟨hb1, hb2⟩ := hids2 i hi
        exact ⟨by omega, hb2⟩
    · rw [hsk2, hsk1, List.append_assoc]
    · rw [hco2, hco1, List.append_assoc]
    · intro p hp
      rcases List.mem_append.mp hp with hp | hp
      · obtain ⟨⟨hb1, hb2⟩, hcase⟩ := hΔ1 p hp
        refine ⟨⟨hb1, by omega⟩, ?_⟩
        rcases hcase with hpar | ⟨y, hy, hy1, hy2⟩
        · exact Or.inl hpar
        · exact Or.inr ⟨y, hy, hy1, by omega⟩
      · obtain ⟨⟨hb1, hb2⟩, hcase⟩ := hΔ2 p hp
        refine ⟨⟨by omega, hb2⟩, ?_⟩
        rcases hcase with hpar | ⟨y, hy, hy1, hy2⟩
        · exact Or.inl hpar
        · exact Or.inr ⟨y, hy, by omega, hy2⟩
    · rw [List.filter_append, hnone1A, hnone2, List.map_cons, hid1, hexn]
      rfl
    · intro p hp
      rcases List.mem_append.mp hp with hp | hp
      · obtain ⟨hb1, hb2, hb3, hb4⟩ := hΔc1 p hp
        exact ⟨hb3, by omega⟩
      · obtain ⟨hb1, hb2⟩ := hΔc2 p hp
        exact ⟨by omega, hb2⟩
    · simp only [ReprOKList]
      refine ⟨?_, hrep2⟩
      apply (reprOK_extend_main (sizeE ex)).1 ex (le_refl _) st1 st2 Δ2 Δc2
        hsk2 hco2 hrep1
      · intro p hp i hi
        obtain ⟨hbi1, hbi2⟩ := hids1 i (by
          obtain ⟨i0, n0, c0, ch0⟩ := ex
          simpa [exIds] using hi)
        obtain ⟨-, hcase⟩ := hΔ2 p hp
        rcases hcase with hpar | ⟨y, hy, hy1, hy2⟩
        · rw [hpar]
          intro h
          exact Option.noConfusion h
        · rw [hy]
          intro h
          injection h with h
          omega
      · intro p hp i hi
        obtain ⟨hbi1, hbi2⟩ := hids1 i (by
          obtain ⟨i0, n0, c0, ch0⟩ := ex
          simpa [exIds] using hi)
        obtain ⟨hb1, hb2⟩ := hΔc2 p hp
        omega

/-- C9: exporting the whole forest and re-importing the document with its
assigned ids stripped (the replace-all import) succeeds whenever the
exported root names are pairwise distinct case-insensitively, returns a
forest that strips back to the imported document — same names, same
nesting, same per-node counters, ids possibly different — and leaves a
state whose own export is exactly that returned forest. -/
theorem C9_round_trip (st : St) (fuel : Nat) (doc : List SkillExportNode)
    (hexp : export_skill_tree fuel st = some doc)
    (hnames : doc.Pairwise
      (fun a b => str_lower a.name ≠ str_lower b.name)) :
    ∃ st2 doc2,
      update_skill_tree (stripList doc) st = .ok (st2, doc2) ∧
      stripList doc2 = stripList doc ∧
      ∃ fuel2, export_skill_tree fuel2 st2 = some doc2 := by
  have hinv0 : StInv (⟨[], 1, [], 1⟩ : St) := by
    constructor <;> intro p hp <;> simp at hp
  have hroot0 : ∀ n ∈ stripList doc,
      rootNameTaken (⟨[], 1, [], 1⟩ : St).skills n.name = false := by
    intro n hn
    rfl
  have hpw : (stripList doc).Pairwise
      (fun a b => str_lower a.name ≠ str_lower b.name) := by
    rw [stripList_map, List.pairwise_map]
    refine hnames.imp ?_
    intro a b h
    rw [strip_name, strip_name]
    exact h
  obtain ⟨st2, doc2, hrun, hinv2, hle, hstrip2, hids, Δ, Δc, hsk, hco, hΔ,
      hnone, hΔc, hrep⟩ :=
    importForest_spec (stripList doc) ⟨[], 1, [], 1⟩ hinv0 hroot0 hpw
  refine ⟨st2, doc2, hrun, hstrip2, sizeEList doc2, ?_⟩
  have hskΔ : st2.skills = Δ := by
    rw [hsk]
    rfl
  have hroots : (st2.skills.filter
      (fun p => p.2.parent_id = none)).map Prod.fst =
      doc2.map SkillExportNode.id := by
    rw [hskΔ, hnone, List.map_map]
    rfl
  unfold export_skill_tree
  rw [hroots]
  exact (export_repr_main (sizeEList doc2)).2 doc2 (le_refl _) st2
    (sizeEList doc2) hrep (le_refl _)

/-- The export document of the Hours scenario state. -/
def docScen : List SkillExportNode :=
  [.mk 1 "Programming" [⟨"Hours", some "h", 5, none⟩]
    [.mk 2 "Python" [⟨"Hours", some "h", 10, none⟩]
      [.mk 3 "Django" [⟨"Hours", some "h", mkRat 7 2, none⟩] []]]]

/-- C9, instantiated: the Hours scenario state exports to `docScen`, whose
single root name is trivially conflict-free, and the round trip holds. -/
theorem C9_round_trip_witness :
    export_skill_tree 3 stScen = some docScen ∧
    docScen.Pairwise (fun a b => str_lower a.name ≠ str_lower b.name) ∧
    ∃ st2 doc2,
      update_skill_tree (stripList docScen) stScen = .ok (st2, doc2) ∧
      stripList doc2 = stripList docScen ∧
      ∃ fuel2, export_skill_tree fuel2 st2 = some doc2 := by
  have hpw : docScen.Pairwise
      (fun a b => str_lower a.name ≠ str_lower b.name) := by
    simp [docScen]
  exact ⟨rfl, hpw, C9_round_trip stScen 3 docScen rfl hpw⟩

end SkillTracker
